import Mathlib

set_option maxRecDepth 2000

/-!
Verification development for the state-and-decision core of a real-time
cross-venue arbitrage discovery engine (rust-pool-cache).

The Rust sources are shallowly embedded: pure functions become Lean
functions, `f64` arithmetic is idealised as exact rational arithmetic
(ℚ), machine integers become ℕ with explicit wrapping where the source
can wrap, `Instant` becomes a millisecond timestamp (ℕ), and the few
stateful loops become explicit state-passing recursions.  `HashMap` /
`DashMap` keyed state becomes association lists or update functions;
`HashSet`s used purely for membership become lists.  `f64::ln` is kept
abstract as an explicit function parameter `lnf : ℚ → ℚ` threaded to the
one place that uses it (Bellman-Ford edge weights), since every claim
about the graph builder is either independent of the numeric value of
the logarithm or is settled by instantiating `lnf`.

Part 1 contains the definitions (the embedding), part 2 the theorems.
-/

/-! # Part 1: definitions -/

/-- Normalised pool view held by the state layer.  The struct lives in
`price_cache.rs`, which is not among the sources; its fields are exactly
those constructed throughout `websocket.rs`, `calculator.rs`,
`dashmap_state.rs` and the routers (pool_id, dex_name, pair,
base_reserve, quote_reserve, base_decimals, quote_decimals, price,
last_update, slot), matching the spec's `PoolView`. -/
structure PoolPrice where
  pool_id : String
  dex_name : String
  pair : String
  base_reserve : Nat
  quote_reserve : Nat
  base_decimals : Nat
  quote_decimals : Nat
  price : ℚ
  last_update : Nat
  slot : Nat
deriving DecidableEq, Repr, Inhabited

/-- Modelled from the spec: `PoolPrice::get_reserves` lives in the missing
`price_cache.rs`; per the data model and all call sites it returns
`(base_reserve, quote_reserve)` in smallest units. -/
def PoolPrice.get_reserves (p : PoolPrice) : Nat × Nat :=
  (p.base_reserve, p.quote_reserve)

/-- Modelled from the spec: `PoolPrice::get_decimals` lives in the missing
`price_cache.rs`; it returns `(base_decimals, quote_decimals)`. -/
def PoolPrice.get_decimals (p : PoolPrice) : Nat × Nat :=
  (p.base_decimals, p.quote_decimals)

namespace amm_calculator

/-- `amm_calculator::calculate_amm_output` (dex_interface.rs): exact
constant-product output on `u64` amounts with `u128` intermediates.
`u64`/`u128` arithmetic is modelled on ℕ with explicit wrapping
(`% 2 ^ 128` on the `u128` products, `% 2 ^ 64` on the final `as u64`
cast); the `fee_denominator - fee_numerator` subtraction is ℕ truncated
subtraction (the Rust `u64` subtraction would panic in debug builds on
underflow; all call sites use `fee_numerator ≤ fee_denominator`).
ℕ division by zero yields 0 where the Rust `u128` division would panic;
no call site reaches that case. -/
def calculate_amm_output (amount_in reserve_in reserve_out fee_numerator fee_denominator : Nat) : Nat :=
  if amount_in = 0 ∨ reserve_in = 0 ∨ reserve_out = 0 then 0
  else
    let amount_in_with_fee := amount_in * (fee_denominator - fee_numerator)
    let numerator := amount_in_with_fee * reserve_out % 2 ^ 128
    let denominator := (reserve_in * fee_denominator + amount_in_with_fee) % 2 ^ 128
    numerator / denominator % 2 ^ 64

/-- `amm_calculator::calculate_amm_output_f64` (dex_interface.rs), with
`f64` idealised as ℚ. -/
def calculate_amm_output_f64 (amount_in reserve_in reserve_out fee_rate : ℚ) : ℚ :=
  if amount_in ≤ 0 ∨ reserve_in ≤ 0 ∨ reserve_out ≤ 0 then 0
  else
    let amount_in_with_fee := amount_in * (1 - fee_rate)
    let numerator := amount_in_with_fee * reserve_out
    let denominator := reserve_in + amount_in_with_fee
    numerator / denominator

/-- `amm_calculator::get_dex_fee_rate` (dex_interface.rs): fee lookup by
lower-cased exact name. -/
def get_dex_fee_rate (dex_name : String) : ℚ :=
  match dex_name.toLower with
  | "raydium" | "raydium amm v4" | "raydium_v4" | "amm_v4" => 0.0025
  | "orca" | "orca whirlpool" | "whirlpool" => 0.003
  | "lifinity" | "lifinity v2" => 0
  | "meteora" | "meteora dlmm" => 0.0025
  | "phoenix" | "openbook" | "openbook_v2" => 0
  | "pancakeswap" | "pcs" => 0.0025
  | "aldrin" => 0.002
  | "saber" => 0.0004
  | _ => 0.003

end amm_calculator

/-! ## State layer (dashmap_state.rs)

The `DashMap<String, PoolPrice>` keyed store is modelled as a list of
entries with unique `pool_id`s; iteration order is irrelevant to every
property proved here.  `Instant` is a millisecond timestamp `now : ℕ`;
`Instant::duration_since` / `Instant::elapsed` saturate at zero exactly
like ℕ truncated subtraction, and `u64::saturating_sub` is ℕ truncated
subtraction. -/

/-- `PriceUpdateEvent` (price_cache.rs, as constructed by
`DashMapStateLayer::update_price`); the `timestamp: Instant` field is
omitted (pure side-effect of the clock). -/
structure PriceUpdateEvent where
  pool_id : String
  pair : String
  old_price : Option ℚ
  new_price : ℚ
  price_change_percent : ℚ
deriving DecidableEq, Repr

/-- `DashMap::insert`: overwrite the entry keyed by `pool_id`, or append
a fresh one. -/
def insert_price : List PoolPrice → PoolPrice → List PoolPrice
  | [], pp => [pp]
  | q :: rest, pp =>
      if q.pool_id = pp.pool_id then pp :: rest else q :: insert_price rest pp

/-- `DashMapStateLayer::update_price` (dashmap_state.rs:71): computes the
price-change percentage against the prior entry, inserts the new entry,
and produces the `PriceUpdateEvent` that is then broadcast
unconditionally (`let _ = self.update_tx.send(event)`). -/
def update_price (entries : List PoolPrice) (pool_price : PoolPrice) :
    List PoolPrice × PriceUpdateEvent :=
  let old_price := (entries.find? (fun e => e.pool_id = pool_price.pool_id)).map (·.price)
  let new_price := pool_price.price
  let price_change_percent :=
    match old_price with
    | some old =>
        if new_price = 0 ∨ old = 0 then 0
        else
          let change := |(new_price - old) / old * 100|
          if change < 0.001 then 0 else change
    | none => if new_price = 0 then 0 else 100
  (insert_price entries pool_price,
   { pool_id := pool_price.pool_id
     pair := pool_price.pair
     old_price := old_price
     new_price := new_price
     price_change_percent := price_change_percent })

/-- `DashMapStateLayer::get_latest_slot` (dashmap_state.rs:222):
`iter().map(slot).max().unwrap_or(0)`. -/
def get_latest_slot (entries : List PoolPrice) : Nat :=
  entries.foldl (fun m p => max m p.slot) 0

/-- `DashMapStateLayer::get_fresh_prices` (dashmap_state.rs:159). -/
def get_fresh_prices (now : Nat) (entries : List PoolPrice) (max_age_ms : Nat) :
    List PoolPrice :=
  entries.filter (fun p => decide (now - p.last_update ≤ max_age_ms))

/-- `DashMapStateLayer::get_consistent_snapshot` (dashmap_state.rs:193):
empty when the latest slot is 0, else the entries that are both fresh
(`age_ms ≤ max_age_ms`) and slot-aligned
(`latest_slot - slot ≤ max_slot_spread`, saturating). -/
def get_consistent_snapshot (now : Nat) (entries : List PoolPrice)
    (max_age_ms max_slot_spread : Nat) : List PoolPrice :=
  let latest_slot := get_latest_slot entries
  if latest_slot = 0 then []
  else
    entries.filter (fun p =>
      decide (now - p.last_update ≤ max_age_ms)
      && decide (latest_slot - p.slot ≤ max_slot_spread))

/-! ## Coordinator (coordinator.rs)

Only the event arm of `Coordinator::run`'s select loop is modelled: it
is the part the claims are about, and it is a pure transition on the
`last_trigger` instant once the channel plumbing is abstracted into a
`calc_busy : Bool` flag (`try_send` on the capacity-1 channel fails
exactly when the Calculator is busy).  Statistics counters are pure
observers and are omitted. -/

/-- `CoordinatorConfig` (coordinator.rs:66). -/
structure CoordinatorConfig where
  tick_interval_ms : Nat
  high_threshold_percent : ℚ
  cooldown_ms : Nat
  calc_channel_capacity : Nat
  event_channel_capacity : Nat
deriving DecidableEq, Repr

/-- `CoordinatorConfig::default` (coordinator.rs:79). -/
def CoordinatorConfig.default_config : CoordinatorConfig :=
  { tick_interval_ms := 100
    high_threshold_percent := 0.2
    cooldown_ms := 20
    calc_channel_capacity := 1
    event_channel_capacity := 1024 }

/-- `PriceChangeEvent` (coordinator.rs:23); the `timestamp` field is
omitted. -/
structure PriceChangeEvent where
  pool_id : String
  pool_name : String
  pair : String
  price_change_percent : ℚ
  old_price : Option ℚ
  new_price : ℚ
deriving DecidableEq, Repr

/-- Event arm of `Coordinator::run` (coordinator.rs:200-280): returns the
new `last_trigger` together with whether a task was dispatched.
The threshold test is `price_change_percent > high_threshold_percent / 100`;
the cooldown test compares `last_trigger.elapsed()` (ℕ truncated
subtraction `now - last_trigger`) against `cooldown_ms`; when it passes,
`last_trigger` is set to `now` BEFORE `try_send`, and a failing
`try_send` (Calculator busy) does not roll it back. -/
def handle_event (config : CoordinatorConfig) (last_trigger now : Nat)
    (event : PriceChangeEvent) (calc_busy : Bool) : Nat × Bool :=
  if config.high_threshold_percent / 100 < event.price_change_percent then
    if config.cooldown_ms ≤ now - last_trigger then
      (now, !calc_busy)
    else
      (last_trigger, false)
  else
    (last_trigger, false)

/-! ## Shared path types (router.rs)

`router.rs` is not among the sources; the `RouteStep` / `ArbitragePath`
structs are reconstructed field-for-field from their construction sites
in `router_bellman_ford.rs` and `router_bfs.rs`, and `is_valid` /
`score` are modelled from the spec (see their doc comments). -/

/-- `ArbitrageType` (router.rs, missing): variants used by both
scanners. -/
inductive ArbitrageType where
  | direct
  | triangle
  | multiHop
deriving DecidableEq, Repr, Inhabited

/-- `RouteStep` (router.rs, missing): fields exactly as constructed in
`router_bellman_ford.rs:377` and `router_bfs.rs:270`. -/
structure RouteStep where
  pool_id : String
  dex_name : String
  input_token : String
  output_token : String
  price : ℚ
  liquidity_base : Nat
  liquidity_quote : Nat
  expected_input : ℚ
  expected_output : ℚ
deriving DecidableEq, Repr, Inhabited

/-- `ArbitragePath` (router.rs, missing): fields exactly as constructed
in `router_bellman_ford.rs:422` and `router_bfs.rs:298`; the
`discovered_at: Instant` field is omitted. -/
structure ArbitragePath where
  arb_type : ArbitrageType
  steps : List RouteStep
  start_token : String
  end_token : String
  input_amount : ℚ
  output_amount : ℚ
  gross_profit : ℚ
  estimated_fees : ℚ
  net_profit : ℚ
  roi_percent : ℚ
deriving DecidableEq, Repr, Inhabited

/-- Modelled from the spec: `ArbitragePath::is_valid` lives in the
missing `router.rs`.  Spec §4.4 step 4 drops paths whose
`start_token != end_token` or whose hop count falls below 2 (the upper
hop bound and the ROI bound are enforced separately by each scanner). -/
def ArbitragePath.is_valid (p : ArbitragePath) : Bool :=
  p.start_token == p.end_token && decide (2 ≤ p.steps.length)

/-- Modelled from the spec: `ArbitragePath::score` lives in the missing
`router.rs`.  Spec §4.4 step 5: `0.6 * net_profit + 0.3 * roi / 100 +
0.1 / hops`. -/
def ArbitragePath.score (p : ArbitragePath) : ℚ :=
  0.6 * p.net_profit + 0.3 * p.roi_percent / 100 + 0.1 / (p.steps.length : ℚ)

/-- `str::contains` for a non-empty needle: true iff the needle occurs
as a substring (splitting on an occurring needle yields ≥ 2 parts). -/
def contains_sub (s pat : String) : Bool :=
  1 < (s.splitOn pat).length

/-- Shared shape of the three signature-deduplication loops
(`BellmanFordScanner::deduplicate_cycles`,
`BfsScanner::deduplicate_paths`, `Calculator::deduplicate_paths`): keep
the first element per signature, threading a seen-set. -/
def dedup_fold {α β : Type} [DecidableEq β] (sig : α → β) (xs : List α) : List α :=
  (xs.foldl (fun acc x =>
    if sig x ∈ acc.2 then acc else (acc.1 ++ [x], sig x :: acc.2)) ([], [])).1

/-- Stable insertion step for sorting paths by descending key (models
`Vec::sort_by` with a descending comparator; `sort_by` is a stable
sort, and only membership matters to the claims below). -/
def insert_desc (key : ArbitragePath → ℚ) (x : ArbitragePath) :
    List ArbitragePath → List ArbitragePath
  | [] => [x]
  | y :: ys => if key y < key x then x :: y :: ys else y :: insert_desc key x ys

/-- Sort paths by descending key. -/
def sort_by_desc (key : ArbitragePath → ℚ) (l : List ArbitragePath) : List ArbitragePath :=
  l.foldr (insert_desc key) []

/-- Insertion into a token set (`HashSet<String>` collected to
`Vec<String>`), keeping first-insertion order (the Rust set's iteration
order is arbitrary; no property below depends on it). -/
def insert_token (ts : List String) (t : String) : List String :=
  if t ∈ ts then ts else ts ++ [t]

/-! ## Bellman-Ford scanner (router_bellman_ford.rs) -/

namespace bellman_ford

/-- `Edge` (router_bellman_ford.rs:19).  The Rust fields `from` / `to`
are keywords in Lean and are rendered `from_token` / `to_token`. -/
structure Edge where
  from_token : String
  to_token : String
  weight : ℚ
  original_price : ℚ
  pool : PoolPrice
deriving DecidableEq, Repr

/-- `NegativeCycle` (router_bellman_ford.rs:35). -/
structure NegativeCycle where
  tokens : List String
  edges : List Edge
  total_weight : ℚ
deriving DecidableEq, Repr

/-- `BellmanFordScanner::get_dex_fee` (router_bellman_ford.rs:438):
substring-matched venue fee table with 0.25 % default. -/
def get_dex_fee (dex_name : String) : ℚ :=
  if contains_sub dex_name "Raydium AMM V4" then 0.0025
  else if contains_sub dex_name "Raydium CLMM" then 0.0001
  else if contains_sub dex_name "Orca" || contains_sub dex_name "Whirlpool" then 0.0001
  else if contains_sub dex_name "Meteora" then 0.0002
  else if contains_sub dex_name "SolFi" then 0.0030
  else if contains_sub dex_name "AlphaQ" then 0.0001
  else if contains_sub dex_name "HumidiFi" then 0.0010
  else if contains_sub dex_name "Lifinity" then 0
  else if contains_sub dex_name "Stabble" then 0.0004
  else 0.0025

/-- `BellmanFordScanner::build_graph` (router_bellman_ford.rs:106): two
directed edges per well-formed pool — `quote → base` with rate
`1 / price`, then `base → quote` with rate `price` — each weighted
`-(lnf rate)`.  `lnf` abstracts `f64::ln`.  (For `price = 0` the Rust
`1.0 / price` is `+inf`; in ℚ it is 0.  Every claim about zero-price
pools below only counts the edges built, which is
division-independent.)  `build_graph_step` is the loop body for a
single pool. -/
def build_graph_step (lnf : ℚ → ℚ) (acc : List Edge × List String) (pool : PoolPrice) :
    List Edge × List String :=
  match pool.pair.splitOn "/" with
  | [base, quote] =>
      let ts := insert_token (insert_token acc.2 base) quote
      let rate_quote_to_base := 1 / pool.price
      let weight_quote_to_base := -(lnf rate_quote_to_base)
      let e1 : Edge :=
        { from_token := quote, to_token := base, weight := weight_quote_to_base,
          original_price := rate_quote_to_base, pool := pool }
      let rate_base_to_quote := pool.price
      let weight_base_to_quote := -(lnf rate_base_to_quote)
      let reverse_pool := { pool with price := rate_base_to_quote }
      let e2 : Edge :=
        { from_token := base, to_token := quote, weight := weight_base_to_quote,
          original_price := rate_base_to_quote, pool := reverse_pool }
      (acc.1 ++ [e1, e2], ts)
  | _ => acc

/-- Body of `build_graph`: fold `build_graph_step` over the pools. -/
def build_graph (lnf : ℚ → ℚ) (pools : List PoolPrice) : List Edge × List String :=
  pools.foldl (build_graph_step lnf) ([], [])

/-- The Bellman-Ford relaxation test on optional distances.  `none`
models the `f64::INFINITY` default (`unwrap_or(INFINITY)`): an infinite
source never relaxes; a finite source always relaxes an infinite
target (`a + w < ∞ - thr`); both finite is the exact comparison. -/
def relaxable (d_from d_to : Option ℚ) (w thr : ℚ) : Bool :=
  match d_from with
  | none => false
  | some a =>
      match d_to with
      | none => true
      | some b => decide (a + w < b - thr)

/-- Pointwise map update (`HashMap::insert`). -/
def map_insert {α : Type} (f : String → Option α) (k : String) (v : α) :
    String → Option α :=
  fun s => if s = k then some v else f s

/-- One relaxation pass over all edges (inner loop of
router_bellman_ford.rs:179-197), threading `(dist, parent, updated)`. -/
def relax_once (edges : List Edge) (thr : ℚ)
    (dist : String → Option ℚ) (par : String → Option (String × Edge)) :
    (String → Option ℚ) × (String → Option (String × Edge)) × Bool :=
  edges.foldl (fun acc e =>
    match acc.1 e.from_token with
    | none => acc
    | some a =>
        let cond :=
          match acc.1 e.to_token with
          | none => true
          | some b => decide (a + e.weight < b - thr)
        if cond then
          (map_insert acc.1 e.to_token (a + e.weight),
           map_insert acc.2.1 e.to_token (e.from_token, e), true)
        else acc) (dist, par, false)

/-- The `V - 1` relaxation rounds with early exit when a pass makes no
update (router_bellman_ford.rs:179-197). -/
def relax_rounds (edges : List Edge) (thr : ℚ) :
    Nat → (String → Option ℚ) → (String → Option (String × Edge)) →
    (String → Option ℚ) × (String → Option (String × Edge))
  | 0, dist, par => (dist, par)
  | k + 1, dist, par =>
      let r := relax_once edges thr dist par
      if r.2.2 then relax_rounds edges thr k r.1 r.2.1 else (r.1, r.2.1)

/-- `MAX_CYCLE_ITERATIONS` (router_bellman_ford.rs:246). -/
def MAX_CYCLE_ITERATIONS : Nat := 20

/-- The predecessor back-walk inside `extract_cycle`
(router_bellman_ford.rs:249-277).  The source counts iterations upward
and aborts when the count reaches the cap; here the remaining fuel
`MAX_CYCLE_ITERATIONS - count` is the recursion argument, which is the
same loop.  Returns the accumulated `(cycle_tokens, cycle_edges)` (in
walk order, before the trailing trigger push and reversal), or `none`
when the cap was hit, together with the number of iterations
performed. -/
def walk (parent : String → Option (String × Edge)) :
    Nat → List String → List String → List Edge → String →
    Option (List String × List Edge) × Nat
  | 0, _, _, _, _ => (none, 0)
  | fuel + 1, visited, toks, eds, current =>
      if current ∈ visited then (some (toks, eds), 0)
      else
        match parent current with
        | some (prev, e) =>
            let r := walk parent fuel (current :: visited) (toks ++ [current]) (eds ++ [e]) prev
            (r.1, r.2 + 1)
        | none => (some (toks, eds), 0)

/-- `Iterator::position` with an explicit running index. -/
def find_idx_from (p : String → Bool) : List String → Nat → Option Nat
  | [], _ => none
  | a :: as_, k => if p a then some k else find_idx_from p as_ (k + 1)

/-- The cycle-trimming step of `extract_cycle`
(router_bellman_ford.rs:287-302): locate the first token occurring more
than once, locate its next occurrence, and slice
`tokens[start..=end]` / `edges[start..end]`; leave untrimmed when
either position is absent. -/
def trim_cycle (T : List String) (E : List Edge) : List String × List Edge :=
  match find_idx_from (fun t => decide (1 < T.count t)) T 0 with
  | none => (T, E)
  | some i =>
      match T[i]? with
      | none => (T, E)
      | some ti =>
          match find_idx_from (fun t => t == ti) (T.drop (i + 1)) 0 with
          | none => (T, E)
          | some p =>
              let j := p + i + 1
              ((T.drop i).take (j - i + 1), (E.drop i).take (j - i))

/-- `BellmanFordScanner::extract_cycle` (router_bellman_ford.rs:233):
back-walk with the hard iteration cap, close with the trigger edge,
reverse, trim to the actual cycle, and validate (strictly negative
total weight, non-empty, first token equals last token). -/
def extract_cycle (thr : ℚ) (parent : String → Option (String × Edge))
    (start_token : String) (trigger_edge : Edge) : Option NegativeCycle :=
  match (walk parent MAX_CYCLE_ITERATIONS [] [] [] start_token).1 with
  | none => none
  | some (toks, eds) =>
      let cycle_tokens := (toks ++ [trigger_edge.to_token]).reverse
      let cycle_edges := (eds ++ [trigger_edge]).reverse
      let tc := trim_cycle cycle_tokens cycle_edges
      let total_weight := (tc.2.map (·.weight)).sum
      if -thr ≤ total_weight then none
      else if tc.1 = [] ∨ tc.2 = [] then none
      else if tc.1.head? ≠ tc.1.getLast? then none
      else some { tokens := tc.1, edges := tc.2, total_weight := total_weight }

/-- `BellmanFordScanner::detect_cycles_from_token`
(router_bellman_ford.rs:159): run `V - 1` relaxation rounds from the
start token, then in one extra pass collect a negative cycle from every
still-relaxable edge whose target was not already used, keeping only
cycles whose token-list length is within `[2, max_hops]`.  The initial
distance map is 0 at the start token and `∞` (`none`) elsewhere.
`detect_step` is the detection-fold body for one edge. -/
def detect_step (max_hops : Nat) (thr : ℚ) (dist : String → Option ℚ)
    (parent : String → Option (String × Edge))
    (acc : List NegativeCycle × List String) (e : Edge) :
    List NegativeCycle × List String :=
  if relaxable (dist e.from_token) (dist e.to_token) e.weight thr then
    if e.to_token ∈ acc.2 then acc
    else
      match extract_cycle thr parent e.to_token e with
      | some cycle =>
          if 2 ≤ cycle.tokens.length ∧ cycle.tokens.length ≤ max_hops then
            (acc.1 ++ [cycle], e.to_token :: acc.2)
          else acc
      | none => acc
  else acc

/-- Body of `detect_cycles_from_token`: relaxation rounds, then the
detection fold (`detect_step`) over the edges. -/
def detect_cycles_from_token (max_hops : Nat) (thr : ℚ) (start_token : String)
    (edges : List Edge) (tokens : List String) : Option (List NegativeCycle) :=
  let n := tokens.length
  let dist0 : String → Option ℚ := fun t => if t = start_token then some 0 else none
  let par0 : String → Option (String × Edge) := fun _ => none
  let dp := relax_rounds edges thr (n - 1) dist0 par0
  let detected := edges.foldl (detect_step max_hops thr dp.1 dp.2) ([], [])
  if detected.1 = [] then none else some detected.1

/-- Ascending insertion for string sorting (`Vec::sort` on `Vec<String>`
is byte-lexicographic; for the ASCII identifiers involved this is the
same order as Lean's `String` order). -/
def insert_sorted_str (x : String) : List String → List String
  | [] => [x]
  | y :: ys => if x ≤ y then x :: y :: ys else y :: insert_sorted_str x ys

/-- `Vec::sort` on strings. -/
def sort_strings (l : List String) : List String :=
  l.foldr insert_sorted_str []

/-- `BellmanFordScanner::deduplicate_cycles`
(router_bellman_ford.rs:330): keep the first cycle per canonical
signature (sorted token list joined by an arrow). -/
def deduplicate_cycles (cycles : List NegativeCycle) : List NegativeCycle :=
  dedup_fold (fun cycle => String.intercalate "->" (sort_strings cycle.tokens)) cycles

/-- `BellmanFordScanner::get_directional_reserves`
(router_bellman_ford.rs:456): decimals-adjusted reserves oriented along
the edge direction. -/
def get_directional_reserves (edge : Edge) : ℚ × ℚ :=
  let pool := edge.pool
  let r := pool.get_reserves
  let d := pool.get_decimals
  let base_reserve_f64 : ℚ := (r.1 : ℚ) / 10 ^ d.1
  let quote_reserve_f64 : ℚ := (r.2 : ℚ) / 10 ^ d.2
  match pool.pair.splitOn "/" with
  | [base_token, quote_token] =>
      if edge.from_token = quote_token ∧ edge.to_token = base_token then
        (quote_reserve_f64, base_reserve_f64)
      else if edge.from_token = base_token ∧ edge.to_token = quote_token then
        (base_reserve_f64, quote_reserve_f64)
      else (base_reserve_f64, quote_reserve_f64)
  | _ => (base_reserve_f64, quote_reserve_f64)

/-- `BellmanFordScanner::cycle_to_path` (router_bellman_ford.rs:350):
simulate the cycle with the exact AMM formula on the probe notional and
assemble the `ArbitragePath`.  The Rust code indexes `cycle.tokens[0]`
and `cycle.tokens.last().unwrap()` after the emptiness guard; the
`none` fall-throughs below are unreachable for non-empty token lists.
`path_step` is the per-edge simulation step. -/
def path_step (acc : List RouteStep × ℚ) (edge : Edge) : List RouteStep × ℚ :=
  let dex_fee := get_dex_fee edge.pool.dex_name
  let rr := get_directional_reserves edge
  let output_amount :=
    amm_calculator.calculate_amm_output_f64 acc.2 rr.1 rr.2 dex_fee
  (acc.1 ++ [{ pool_id := edge.pool.pool_id, dex_name := edge.pool.dex_name,
               input_token := edge.from_token, output_token := edge.to_token,
               price := edge.original_price,
               liquidity_base := edge.pool.base_reserve,
               liquidity_quote := edge.pool.quote_reserve,
               expected_input := acc.2, expected_output := output_amount }],
   output_amount)

/-- Body of `cycle_to_path`: fold `path_step` along the cycle's edges
starting from the probe notional. -/
def cycle_to_path (initial_amount : ℚ) (cycle : NegativeCycle) : Option ArbitragePath :=
  if cycle.edges = [] ∨ cycle.tokens = [] then none
  else
    match cycle.tokens.head?, cycle.tokens.getLast? with
    | some start_token, some last_token =>
        let sa := cycle.edges.foldl path_step ([], initial_amount)
        let steps := sa.1
        let final_amount := sa.2
        let gross_profit := final_amount - initial_amount
        let total_dex_fees := (cycle.edges.map (fun e => get_dex_fee e.pool.dex_name)).sum
        let estimated_fees := initial_amount * total_dex_fees
        let gas_fee : ℚ :=
          if steps.length = 2 then 0.0001
          else if steps.length = 3 then 0.0002
          else if steps.length = 4 then 0.0003
          else if steps.length = 5 then 0.0004
          else 0.0005
        let net_profit := gross_profit - gas_fee
        let roi_percent := net_profit / initial_amount * 100
        let arb_type :=
          if steps.length = 2 then ArbitrageType.direct
          else if steps.length = 3 then ArbitrageType.triangle
          else ArbitrageType.multiHop
        some { arb_type := arb_type, steps := steps, start_token := start_token,
               end_token := last_token, input_amount := initial_amount,
               output_amount := final_amount, gross_profit := gross_profit,
               estimated_fees := estimated_fees + gas_fee, net_profit := net_profit,
               roi_percent := roi_percent }
    | _, _ => none

/-- `BellmanFordScanner::find_all_cycles` (router_bellman_ford.rs:67):
build the graph, detect negative cycles from every token
(`rayon` parallelism is a pure `filter_map` + `flatten` over the token
list), deduplicate, convert to paths, filter by validity and minimum
ROI, and sort by descending score.  The scanner's
`convergence_threshold` is 0.0001 (router_bellman_ford.rs:62). -/
def find_all_cycles (max_hops : Nat) (min_roi_percent : ℚ) (lnf : ℚ → ℚ)
    (pools : List PoolPrice) (initial_amount : ℚ) : List ArbitragePath :=
  let g := build_graph lnf pools
  if g.2 = [] ∨ g.1 = [] then []
  else
    let all_cycles := (g.2.map (fun t =>
      (detect_cycles_from_token max_hops (1/10000) t g.1 g.2).getD [])).flatten
    let all_cycles := deduplicate_cycles all_cycles
    let paths := all_cycles.filterMap (cycle_to_path initial_amount)
    let paths := paths.filter (fun p => p.is_valid && decide (min_roi_percent ≤ p.roi_percent))
    sort_by_desc ArbitragePath.score paths

end bellman_ford

/-! ## BFS scanner (router_bfs.rs) -/

namespace bfs

/-- `PoolEdge` (router_bfs.rs:33). -/
structure PoolEdge where
  pool : PoolPrice
  from_token : String
  to_token : String
deriving DecidableEq, Repr

/-- `PathNode` (router_bfs.rs:20). -/
structure PathNode where
  tokens : List String
  amount : ℚ
  edges : List PoolEdge
  total_fees : ℚ
deriving DecidableEq, Repr

/-- `BfsScanner::get_next_edges` (router_bfs.rs:173): for every
well-formed pool, an edge `quote → base` when the current token is the
quote side, and an edge `base → quote` when it is the base side (both
when the sides coincide).  `get_next_edges_step` is the per-pool loop
body (the source performs two sequential pushes; the grouping of the
appends is immaterial). -/
def get_next_edges_step (current_token : String) (acc : List PoolEdge)
    (pool : PoolPrice) : List PoolEdge :=
  match pool.pair.splitOn "/" with
  | [base, quote] =>
      acc ++ ((if current_token = quote then
                 [{ pool := pool, from_token := quote, to_token := base }] else [])
              ++ (if current_token = base then
                 [{ pool := pool, from_token := base, to_token := quote }] else []))
  | _ => acc

/-- Body of `get_next_edges`: fold `get_next_edges_step` over the
pools. -/
def get_next_edges (current_token : String) (pools : List PoolPrice) : List PoolEdge :=
  pools.foldl (get_next_edges_step current_token) []

/-- `BfsScanner::get_directional_reserves` (router_bfs.rs:212). -/
def get_directional_reserves (edge : PoolEdge) : ℚ × ℚ :=
  let r := edge.pool.get_reserves
  let d := edge.pool.get_decimals
  let base_reserve_f64 : ℚ := (r.1 : ℚ) / 10 ^ d.1
  let quote_reserve_f64 : ℚ := (r.2 : ℚ) / 10 ^ d.2
  match edge.pool.pair.splitOn "/" with
  | [base_token, quote_token] =>
      if edge.from_token = quote_token ∧ edge.to_token = base_token then
        (quote_reserve_f64, base_reserve_f64)
      else if edge.from_token = base_token ∧ edge.to_token = quote_token then
        (base_reserve_f64, quote_reserve_f64)
      else (base_reserve_f64, quote_reserve_f64)
  | _ => (base_reserve_f64, quote_reserve_f64)

/-- `BfsScanner::generate_path_signature` (router_bfs.rs:237). -/
def generate_path_signature (path : PathNode) : String :=
  String.intercalate "->" path.tokens ++ "::"
    ++ String.intercalate "|" (path.edges.map (fun e => e.pool.pool_id))

/-- `BfsScanner::convert_to_arbitrage_path` (router_bfs.rs:247).  The
Rust code unwraps `tokens.first()` / `tokens.last()`; the `none`
fall-through is unreachable since every node carries a non-empty token
list.  `convert_step` is the per-edge simulation step. -/
def convert_step (acc : List RouteStep × ℚ) (edge : PoolEdge) : List RouteStep × ℚ :=
  let rr := get_directional_reserves edge
  let fee := amm_calculator.get_dex_fee_rate edge.pool.dex_name
  let output_amount :=
    amm_calculator.calculate_amm_output_f64 acc.2 rr.1 rr.2 fee
  (acc.1 ++ [{ pool_id := edge.pool.pool_id, dex_name := edge.pool.dex_name,
               input_token := edge.from_token, output_token := edge.to_token,
               price := edge.pool.price,
               liquidity_base := edge.pool.base_reserve,
               liquidity_quote := edge.pool.quote_reserve,
               expected_input := acc.2, expected_output := output_amount }],
   output_amount)

/-- Body of `convert_to_arbitrage_path`: fold `convert_step` along the
node's edges starting from the probe notional. -/
def convert_to_arbitrage_path (path_node : PathNode) (initial_amount : ℚ) :
    Option ArbitragePath :=
  if path_node.edges = [] then none
  else
    match path_node.tokens.head?, path_node.tokens.getLast? with
    | some first_token, some last_token =>
        let sa := path_node.edges.foldl convert_step ([], initial_amount)
        let final_amount := sa.2
        let gross_profit := final_amount - initial_amount
        let gas_estimate := 0.0001 * (sa.1.length : ℚ)
        let net_profit := gross_profit - gas_estimate
        let roi_percent := net_profit / initial_amount * 100
        let arb_type :=
          if sa.1.length = 2 then ArbitrageType.direct
          else if sa.1.length = 3 then ArbitrageType.triangle
          else ArbitrageType.multiHop
        some { arb_type := arb_type, steps := sa.1, start_token := first_token,
               end_token := last_token, input_amount := initial_amount,
               output_amount := final_amount, gross_profit := gross_profit,
               estimated_fees := path_node.total_fees + gas_estimate,
               net_profit := net_profit, roi_percent := roi_percent }
    | _, _ => none

/-- The expansion loop of `bfs_from_token` (router_bfs.rs:130-166):
fold over the candidate edges, applying the no-immediate-backtrack
rule, the no-revisit rule, and path-signature deduplication against the
visited set; returns the new children and the updated visited set.
`expand_step` is the per-edge body. -/
def expand_step (start_token : String) (node : PathNode)
    (acc : List PathNode × List String) (edge : PoolEdge) :
    List PathNode × List String :=
  let next_token := edge.to_token
  let depth := node.tokens.length - 1
  if 1 ≤ depth ∧ next_token = start_token ∧ depth < 2 then acc
  else if next_token ∈ node.tokens ∧ next_token ≠ start_token then acc
  else
    let rr := get_directional_reserves edge
    let fee := amm_calculator.get_dex_fee_rate edge.pool.dex_name
    let next_amount := amm_calculator.calculate_amm_output_f64 node.amount rr.1 rr.2 fee
    let new_path : PathNode :=
      { tokens := node.tokens ++ [next_token], amount := next_amount,
        edges := node.edges ++ [edge],
        total_fees := node.total_fees + fee * node.amount }
    let path_signature := generate_path_signature new_path
    if path_signature ∈ acc.2 then acc
    else (acc.1 ++ [new_path], path_signature :: acc.2)

/-- Body of `expand`: fold `expand_step` over the candidate edges. -/
def expand (start_token current_token : String) (node : PathNode)
    (pools : List PoolPrice) (visited : List String) :
    List PathNode × List String :=
  (get_next_edges current_token pools).foldl (expand_step start_token node) ([], visited)

/-- Termination measure for the BFS frontier: each queued node of token
length `L` weighs `B ^ (max_depth + 2 - L)` where `B` bounds the edge
fan-out plus one; every loop step strictly decreases the total (see
`bfs_loop_fuel_sufficient`). -/
def bfs_measure (max_depth : Nat) (pools : List PoolPrice) (queue : List PathNode) : Nat :=
  (queue.map (fun n => (2 * pools.length + 1) ^ (max_depth + 2 - n.tokens.length))).sum

/-- The `while let Some(current_path) = queue.pop_front()` loop of
`BfsScanner::bfs_from_token` (router_bfs.rs:100-167), with an explicit
fuel argument making the recursion structural: the caller supplies
`bfs_measure queue + 1` fuel, and `bfs_loop_fuel_sufficient` below
proves the fuel bound is never hit, so this is the source's unbounded
loop.  Order of the checks per iteration: depth cap, early-ROI prune,
cycle closure (emit when ROI passes), frontier expansion. -/
def bfs_loop (max_depth : Nat) (min_roi_percent early_stop_threshold : ℚ)
    (start_token : String) (pools : List PoolPrice) (initial_amount : ℚ) :
    Nat → List PathNode → List String → List ArbitragePath → List ArbitragePath
  | 0, _, _, results => results
  | _ + 1, [], _, results => results
  | fuel + 1, node :: rest, visited, results =>
      let depth := node.tokens.length - 1
      if max_depth ≤ depth then
        bfs_loop max_depth min_roi_percent early_stop_threshold start_token pools
          initial_amount fuel rest visited results
      else if 0 < depth
          ∧ (node.amount - initial_amount) / initial_amount * 100 < early_stop_threshold then
        bfs_loop max_depth min_roi_percent early_stop_threshold start_token pools
          initial_amount fuel rest visited results
      else
        match node.tokens.getLast? with
        | none =>
            bfs_loop max_depth min_roi_percent early_stop_threshold start_token pools
              initial_amount fuel rest visited results
        | some current_token =>
            if 2 ≤ depth ∧ current_token = start_token then
              let results2 :=
                match convert_to_arbitrage_path node initial_amount with
                | some arb_path =>
                    if min_roi_percent ≤ arb_path.roi_percent then results ++ [arb_path]
                    else results
                | none => results
              bfs_loop max_depth min_roi_percent early_stop_threshold start_token pools
                initial_amount fuel rest visited results2
            else
              let ec := expand start_token current_token node pools visited
              bfs_loop max_depth min_roi_percent early_stop_threshold start_token pools
                initial_amount fuel (rest ++ ec.1) ec.2 results

/-- `BfsScanner::bfs_from_token` (router_bfs.rs:81): start the loop on
the singleton frontier.  The scanner's `early_stop_threshold` is -0.5
(router_bfs.rs:56). -/
def bfs_from_token (max_depth : Nat) (min_roi_percent : ℚ) (start_token : String)
    (pools : List PoolPrice) (initial_amount : ℚ) : List ArbitragePath :=
  let init : PathNode :=
    { tokens := [start_token], amount := initial_amount, edges := [], total_fees := 0 }
  bfs_loop max_depth min_roi_percent (-0.5) start_token pools initial_amount
    (bfs_measure max_depth pools [init] + 1) [init] [] []

/-- `BfsScanner::extract_unique_tokens` (router_bfs.rs:314). -/
def extract_unique_tokens (pools : List PoolPrice) : List String :=
  pools.foldl (fun ts pool =>
    match pool.pair.splitOn "/" with
    | [base, quote] => insert_token (insert_token ts base) quote
    | _ => ts) []

/-- `BfsScanner::generate_arbitrage_signature` (router_bfs.rs:345). -/
def generate_arbitrage_signature (path : ArbitragePath) : String :=
  String.intercalate "->" (path.steps.map (fun s => s.input_token)) ++ "::"
    ++ String.intercalate "|" (path.steps.map (fun s => s.pool_id))

/-- `BfsScanner::deduplicate_paths` (router_bfs.rs:329). -/
def deduplicate_paths (paths : List ArbitragePath) : List ArbitragePath :=
  dedup_fold generate_arbitrage_signature paths

/-- `BfsScanner::find_all_opportunities` (router_bfs.rs:61): BFS from
every token, deduplicate, sort by descending ROI. -/
def find_all_opportunities (max_depth : Nat) (min_roi_percent : ℚ)
    (pools : List PoolPrice) (initial_amount : ℚ) : List ArbitragePath :=
  let tokens := extract_unique_tokens pools
  let all_paths := (tokens.map (fun t =>
    bfs_from_token max_depth min_roi_percent t pools initial_amount)).flatten
  let all_paths := deduplicate_paths all_paths
  sort_by_desc (fun p => p.roi_percent) all_paths

end bfs

/-! ## Calculator (calculator.rs) -/

/-- `CalculatorConfig` (calculator.rs:28). -/
structure CalculatorConfig where
  enable_bf : Bool
  enable_bfs : Bool
  bf_max_hops : Nat
  bfs_max_hops : Nat
  min_roi_percent : ℚ
deriving DecidableEq, Repr

/-- `CalculatorConfig::default` (calculator.rs:42). -/
def CalculatorConfig.default_config : CalculatorConfig :=
  { enable_bf := true, enable_bfs := true, bf_max_hops := 6,
    bfs_max_hops := 3, min_roi_percent := 0.3 }

/-- `Calculator::deduplicate_paths` (calculator.rs:177): keep the first
path per ordered `pool_id` sequence. -/
def calculator_deduplicate_paths (paths : List ArbitragePath) : List ArbitragePath :=
  dedup_fold (fun path => path.steps.map (fun s => s.pool_id)) paths

/-- `Calculator::calculate` (calculator.rs:91): take the consistent
snapshot with `max_age = 2000 ms`, `max_slot_spread = 10`; if it is
empty return the empty result (there is no fallback to a fresh
snapshot); otherwise run the enabled scanners (probe notional 10.0,
calculator.rs:167/173) and deduplicate the union.  The
`CalculationTask` argument only feeds logging and is omitted. -/
def calculate (config : CalculatorConfig) (lnf : ℚ → ℚ) (now : Nat)
    (entries : List PoolPrice) : List ArbitragePath :=
  let snapshot := get_consistent_snapshot now entries 2000 10
  if snapshot = [] then []
  else
    let bfs_paths :=
      if config.enable_bfs then
        bfs.find_all_opportunities config.bfs_max_hops config.min_roi_percent snapshot 10
      else []
    let bf_paths :=
      if config.enable_bf then
        bellman_ford.find_all_cycles config.bf_max_hops config.min_roi_percent lnf snapshot 10
      else []
    let all_paths := bfs_paths ++ bf_paths
    if all_paths = [] then [] else calculator_deduplicate_paths all_paths

/-- Constant-product pool `AAA/BBB` at price 100 (triangle fixture). -/
def wPoolT1 : PoolPrice :=
  { pool_id := "PX", dex_name := "Test", pair := "AAA/BBB",
    base_reserve := 1000, quote_reserve := 100000, base_decimals := 0,
    quote_decimals := 0, price := 100, last_update := 0, slot := 100 }

/-- Constant-product pool `BBB/CCC` at price 1 (triangle fixture). -/
def wPoolT2 : PoolPrice :=
  { pool_id := "PY", dex_name := "Test", pair := "BBB/CCC",
    base_reserve := 100000, quote_reserve := 100000, base_decimals := 0,
    quote_decimals := 0, price := 1, last_update := 0, slot := 100 }

/-- Constant-product pool `CCC/AAA` whose reserve ratio closes the
triangle at a profit (triangle fixture). -/
def wPoolT3 : PoolPrice :=
  { pool_id := "PZ", dex_name := "Test", pair := "CCC/AAA",
    base_reserve := 100000, quote_reserve := 1100, base_decimals := 0,
    quote_decimals := 0, price := 11/1000, last_update := 0, slot := 100 }

/-- BFS-only configuration with depth 4 (3-hop cycles reachable). -/
def wCfg : CalculatorConfig :=
  { enable_bf := false, enable_bfs := true, bf_max_hops := 6,
    bfs_max_hops := 4, min_roi_percent := 0.3 }

/-- A full concrete run of the Calculator on the triangle fixture. -/
def wCalc : List ArbitragePath :=
  calculate wCfg (fun _ => 0) 100 [wPoolT1, wPoolT2, wPoolT3]

/-- Invariant of every frontier node of a BFS run from `start`: the
token list starts at `start` and has one more entry than the edge
list. -/
def bfs_node_ok (start : String) (n : bfs.PathNode) : Prop :=
  n.tokens.head? = some start ∧ n.edges.length + 1 = n.tokens.length

/-- The property claimed of every returned path: closed cycle with hop
count in `[2, maxD]`. -/
def path_hops_ok (maxD : Nat) (p : ArbitragePath) : Prop :=
  p.start_token = p.end_token ∧ 2 ≤ p.steps.length ∧ p.steps.length ≤ maxD

/-- Concrete pool used by several witnesses. -/
def wPool1 : PoolPrice :=
  { pool_id := "p1", dex_name := "Test", pair := "SOL/USDC",
    base_reserve := 1, quote_reserve := 1, base_decimals := 0,
    quote_decimals := 0, price := 1, last_update := 900, slot := 50 }

/-- Concrete pool used by several witnesses. -/
def wPool2 : PoolPrice :=
  { pool_id := "p2", dex_name := "Test", pair := "SOL/USDT",
    base_reserve := 1, quote_reserve := 1, base_decimals := 0,
    quote_decimals := 0, price := 1, last_update := 100, slot := 58 }

/-- Concrete pool with price 2 on a venue with a nonzero fee, used to
settle the edge-weight claim. -/
def wPoolC1 : PoolPrice :=
  { pool_id := "x", dex_name := "Raydium AMM V4", pair := "SOL/USDC",
    base_reserve := 1000, quote_reserve := 2000, base_decimals := 0,
    quote_decimals := 0, price := 2, last_update := 0, slot := 1 }

/-- Concrete pool with `mid_price = 0` (a vault-linked pool before its
vault balances arrive), used to settle the zero-price-exclusion
claim. -/
def wPoolC3 : PoolPrice :=
  { pool_id := "z", dex_name := "SolFi V2", pair := "SOL/USDC",
    base_reserve := 0, quote_reserve := 0, base_decimals := 9,
    quote_decimals := 6, price := 0, last_update := 0, slot := 7 }

/-- Concrete pool whose age (4000 ms at `now = 10000`) fails the 2 s
consistent-snapshot bound but passes the 5 s fresh bound. -/
def wPoolStale : PoolPrice :=
  { pool_id := "s", dex_name := "Test", pair := "SOL/USDC",
    base_reserve := 1000, quote_reserve := 1000, base_decimals := 0,
    quote_decimals := 0, price := 100, last_update := 6000, slot := 5 }

/-- Dummy edge used by the corrupted-parent-map fixture. -/
def wEdge : bellman_ford.Edge :=
  { from_token := "A", to_token := "B", weight := 0, original_price := 0,
    pool := wPool1 }

/-- A 20-link predecessor chain `t0 → t1 → … → t20`: a corrupted parent
map long enough to drive the reconstruction walk into its iteration
cap. -/
def wChainList : List (String × (String × bellman_ford.Edge)) :=
  (List.range 20).map (fun i => ("t" ++ toString i, ("t" ++ toString (i + 1), wEdge)))

/-- The chain as a parent map. -/
def wChain : String → Option (String × bellman_ford.Edge) :=
  fun s => wChainList.lookup s

/-! # Part 2: theorems -/

/-- C5: for a constant-product step with positive reserves, fee in
`[0, 1)` and positive input, the output of
`calculate_amm_output_f64` is strictly below the fee-discounted linear
price `amount_in * R_out / R_in * (1 - f)` (slippage lemma), and the
post-trade product dominates the pre-trade product:
`(R_in + amount_in * (1 - f)) * (R_out - out) ≥ R_in * R_out`
(constant-product invariant; over exact arithmetic the inequality holds
outright, hence in particular within the claimed 1e-9 relative
tolerance). -/
theorem amm_constant_product_properties
    (amount_in reserve_in reserve_out fee_rate : ℚ)
    (ha : 0 < amount_in) (hri : 0 < reserve_in) (hro : 0 < reserve_out)
    (_hf0 : 0 ≤ fee_rate) (hf1 : fee_rate < 1) :
    amm_calculator.calculate_amm_output_f64 amount_in reserve_in reserve_out fee_rate
      < amount_in * reserve_out / reserve_in * (1 - fee_rate)
    ∧ reserve_in * reserve_out ≤
      (reserve_in + amount_in * (1 - fee_rate)) *
        (reserve_out - amm_calculator.calculate_amm_output_f64 amount_in reserve_in reserve_out fee_rate) := by
  have hx : 0 < amount_in * (1 - fee_rate) := by
    have h1 : (0 : ℚ) < 1 - fee_rate := by linarith
    exact mul_pos ha h1
  have hguard : ¬ (amount_in ≤ 0 ∨ reserve_in ≤ 0 ∨ reserve_out ≤ 0) := by
    push_neg
    exact ⟨ha, hri, hro⟩
  have hout : amm_calculator.calculate_amm_output_f64 amount_in reserve_in reserve_out fee_rate
      = amount_in * (1 - fee_rate) * reserve_out / (reserve_in + amount_in * (1 - fee_rate)) := by
    simp only [amm_calculator.calculate_amm_output_f64, if_neg hguard]
  set x := amount_in * (1 - fee_rate) with hxdef
  have hden : 0 < reserve_in + x := by linarith
  constructor
  · rw [hout]
    have hlt : x * reserve_out / (reserve_in + x) < x * reserve_out / reserve_in := by
      apply div_lt_div_of_pos_left (mul_pos hx hro) hri
      linarith
    have heq : amount_in * reserve_out / reserve_in * (1 - fee_rate) = x * reserve_out / reserve_in := by
      field_simp
      ring
    rw [heq]
    exact hlt
  · rw [hout]
    have heq : (reserve_in + x) * (reserve_out - x * reserve_out / (reserve_in + x))
        = reserve_in * reserve_out := by
      field_simp
      ring
    rw [heq]

/-- Witness for C5 at `amount_in = 1`, reserves `(1000, 185000)`, fee
`0.25 %`. -/
theorem amm_constant_product_properties_witness :
    amm_calculator.calculate_amm_output_f64 1 1000 185000 (1/400)
      < 1 * 185000 / 1000 * (1 - 1/400)
    ∧ (1000 : ℚ) * 185000 ≤
      (1000 + 1 * (1 - 1/400)) *
        (185000 - amm_calculator.calculate_amm_output_f64 1 1000 185000 (1/400)) :=
  amm_constant_product_properties 1 1000 185000 (1/400)
    (by norm_num) (by norm_num) (by norm_num) (by norm_num) (by norm_num)

/-- C10: totality of the AMM output functions at the public interface:
the `f64` variant returns 0 whenever any of `amount_in`, `reserve_in`,
`reserve_out` is non-positive; for positive inputs with fee in `[0, 1)`
the denominator `reserve_in + amount_in * (1 - fee)` is strictly
positive and the result is strictly below `reserve_out`; and the `u64`
variant returns 0 whenever any of its three amount arguments is 0. -/
theorem amm_output_total
    (amount_in reserve_in reserve_out fee_rate : ℚ) :
    (amount_in ≤ 0 ∨ reserve_in ≤ 0 ∨ reserve_out ≤ 0 →
      amm_calculator.calculate_amm_output_f64 amount_in reserve_in reserve_out fee_rate = 0)
    ∧ (0 < amount_in → 0 < reserve_in → 0 < reserve_out → 0 ≤ fee_rate → fee_rate < 1 →
        0 < reserve_in + amount_in * (1 - fee_rate)
        ∧ amm_calculator.calculate_amm_output_f64 amount_in reserve_in reserve_out fee_rate < reserve_out)
    ∧ (∀ a ri ro fn fd : Nat, a = 0 ∨ ri = 0 ∨ ro = 0 →
        amm_calculator.calculate_amm_output a ri ro fn fd = 0) := by
  refine ⟨?_, ?_, ?_⟩
  · intro h
    simp only [amm_calculator.calculate_amm_output_f64, if_pos h]
  · intro ha hri hro hf0 hf1
    have hx : 0 < amount_in * (1 - fee_rate) := by
      have h1 : (0 : ℚ) < 1 - fee_rate := by linarith
      exact mul_pos ha h1
    have hguard : ¬ (amount_in ≤ 0 ∨ reserve_in ≤ 0 ∨ reserve_out ≤ 0) := by
      push_neg
      exact ⟨ha, hri, hro⟩
    have hden : 0 < reserve_in + amount_in * (1 - fee_rate) := by linarith
    refine ⟨hden, ?_⟩
    simp only [amm_calculator.calculate_amm_output_f64, if_neg hguard]
    rw [div_lt_iff₀ hden]
    nlinarith
  · intro a ri ro fn fd h
    simp only [amm_calculator.calculate_amm_output, if_pos h]

/-- Witness for C10 at concrete inputs. -/
theorem amm_output_total_witness :
    amm_calculator.calculate_amm_output_f64 (-1) 1000 185000 (1/400) = 0
    ∧ (0 < (1000 : ℚ) + 1 * (1 - 1/400)
        ∧ amm_calculator.calculate_amm_output_f64 1 1000 185000 (1/400) < 185000)
    ∧ amm_calculator.calculate_amm_output 0 1000 185000 25 10000 = 0 :=
  ⟨(amm_output_total (-1) 1000 185000 (1/400)).1 (by norm_num),
   (amm_output_total 1 1000 185000 (1/400)).2.1
     (by norm_num) (by norm_num) (by norm_num) (by norm_num) (by norm_num),
   (amm_output_total 1 1000 185000 (1/400)).2.2 0 1000 185000 25 10000 (by norm_num)⟩

/-- C7: every entry returned by `get_consistent_snapshot` is within the
age bound and within the slot-spread bound of the maximum stored slot,
and the snapshot is empty when the latest slot is 0. -/
theorem get_consistent_snapshot_sound (now : Nat) (entries : List PoolPrice)
    (max_age_ms max_slot_spread : Nat) :
    (∀ p ∈ get_consistent_snapshot now entries max_age_ms max_slot_spread,
        now - p.last_update ≤ max_age_ms
        ∧ get_latest_slot entries - p.slot ≤ max_slot_spread)
    ∧ (get_latest_slot entries = 0 →
        get_consistent_snapshot now entries max_age_ms max_slot_spread = []) := by
  constructor
  · intro p hp
    simp only [get_consistent_snapshot] at hp
    split at hp
    · simp at hp
    · rw [List.mem_filter] at hp
      have h := hp.2
      simp only [Bool.and_eq_true, decide_eq_true_eq] at h
      exact h
  · intro h0
    simp only [get_consistent_snapshot]
    simp [h0]

/-- Witness for C7: a concrete two-entry store. -/
theorem get_consistent_snapshot_sound_witness :
    (1000 : Nat) - wPool1.last_update ≤ 200
    ∧ get_latest_slot [wPool1, wPool2] - wPool1.slot ≤ 10 :=
  (get_consistent_snapshot_sound 1000 [wPool1, wPool2] 200 10).1 wPool1 (by decide)

/-- Unfolding lemma: the percentage carried by the event produced by
`update_price`, as a function of the prior entry. -/
theorem update_price_percent_def (entries : List PoolPrice) (pp : PoolPrice) :
    (update_price entries pp).2.price_change_percent =
      match (entries.find? (fun e => e.pool_id = pp.pool_id)).map (·.price) with
      | some old =>
          if pp.price = 0 ∨ old = 0 then 0
          else if |(pp.price - old) / old * 100| < 0.001 then 0
          else |(pp.price - old) / old * 100|
      | none => if pp.price = 0 then 0 else 100 := rfl

/-- Unfolding lemma: the `old_price` and `new_price` fields of the event
produced by `update_price`. -/
theorem update_price_event_fields (entries : List PoolPrice) (pp : PoolPrice) :
    (update_price entries pp).2.old_price
      = (entries.find? (fun e => e.pool_id = pp.pool_id)).map (·.price)
    ∧ (update_price entries pp).2.new_price = pp.price :=
  ⟨rfl, rfl⟩

/-- Counterexample for C4: when exactly one of the old and new prices is
0 (here old = 1, new = 0), the claim says an event with
`change_ratio = 1.0` (i.e. 100 %) is published; `update_price` instead
produces the event with `price_change_percent = 0`.  Moreover, in the
noise-floor case (relative change `1e-6 < 1e-5`) the claim says the
event is suppressed; `update_price` still produces an event — with the
percentage clamped to 0 — and its broadcast send is unconditional. -/
theorem update_price_change_policy_cex :
    (update_price [wPool1] { wPool1 with price := 0 }).2.price_change_percent = 0
    ∧ (update_price [wPool1] { wPool1 with price := 0 }).2.price_change_percent ≠ 100
    ∧ (update_price [wPool1] { wPool1 with price := 1 + 1/1000000 }).2.price_change_percent = 0
    ∧ (update_price [wPool1] { wPool1 with price := 1 + 1/1000000 }).2.old_price = some 1 := by
  have hf : [wPool1].find? (fun e =>
      e.pool_id = ({ wPool1 with price := 1 + 1/1000000 } : PoolPrice).pool_id) = some wPool1 := by
    decide
  refine ⟨by decide, by decide, ?_, ?_⟩
  · rw [update_price_percent_def, hf]
    simp only [Option.map_some', wPool1]
    rw [if_neg (by norm_num)]
    rw [if_pos (by rw [abs_of_nonneg (by norm_num)]; norm_num)]
  · rw [(update_price_event_fields [wPool1] _).1, hf]
    rfl

/-- C4 (amended): `update_price` always produces its `PriceUpdateEvent`
(the broadcast send is unconditional, never suppressed).  The carried
percentage is: 100 on the first observation of a pool with nonzero
price and 0 on first observation of a zero price; 0 whenever either the
old or the new price is 0 (regardless of whether one or both are 0);
otherwise `|new - old| / |old| * 100`, clamped to 0 when the relative
change `|new - old| / |old|` is below the `1e-5` noise floor (the
source's `0.001` percent threshold). -/
theorem update_price_change_policy (entries : List PoolPrice) (pp : PoolPrice) :
    (entries.find? (fun e => e.pool_id = pp.pool_id) = none →
      (update_price entries pp).2.price_change_percent = (if pp.price = 0 then 0 else 100))
    ∧ (∀ e, entries.find? (fun e2 => e2.pool_id = pp.pool_id) = some e →
        e.price = 0 ∨ pp.price = 0 →
        (update_price entries pp).2.price_change_percent = 0)
    ∧ (∀ e, entries.find? (fun e2 => e2.pool_id = pp.pool_id) = some e →
        e.price ≠ 0 → pp.price ≠ 0 →
        ((|pp.price - e.price| / |e.price| < 1/100000 →
            (update_price entries pp).2.price_change_percent = 0)
         ∧ (¬ |pp.price - e.price| / |e.price| < 1/100000 →
            (update_price entries pp).2.price_change_percent
              = |pp.price - e.price| / |e.price| * 100)))
    ∧ (update_price entries pp).2.new_price = pp.price
    ∧ (update_price entries pp).2.old_price
        = (entries.find? (fun e => e.pool_id = pp.pool_id)).map (·.price) := by
  have habs : ∀ e : PoolPrice,
      |(pp.price - e.price) / e.price * 100| = |pp.price - e.price| / |e.price| * 100 := by
    intro e
    rw [abs_mul, abs_div]
    norm_num
  have hlit : (0.001 : ℚ) = 1/1000 := by norm_num
  refine ⟨?_, ?_, ?_, ?_, ?_⟩
  · intro hnone
    rw [update_price_percent_def, hnone]
    simp only [Option.map_none']
  · intro e he hzero
    rw [update_price_percent_def, he]
    simp only [Option.map_some']
    rw [if_pos hzero.symm]
  · intro e he hold hnew
    have hcond : ¬ (pp.price = 0 ∨ e.price = 0) := by
      push_neg
      exact ⟨hnew, hold⟩
    constructor
    · intro hsmall
      rw [update_price_percent_def, he]
      simp only [Option.map_some']
      rw [if_neg hcond, habs e]
      rw [if_pos (by rw [hlit]; linarith)]
    · intro hbig
      push_neg at hbig
      rw [update_price_percent_def, he]
      simp only [Option.map_some']
      rw [if_neg hcond, habs e]
      rw [if_neg (by push_neg; rw [hlit]; linarith)]
  · exact (update_price_event_fields entries pp).2
  · exact (update_price_event_fields entries pp).1

/-- Witness for C4 (amended): a concrete update of an existing pool from
price 1 to price 2 carries `|2 - 1| / |1| * 100 = 100` percent. -/
theorem update_price_change_policy_witness :
    (update_price [wPool1] { wPool1 with price := 2 }).2.price_change_percent
      = |({ wPool1 with price := 2 } : PoolPrice).price - wPool1.price| / |wPool1.price| * 100 :=
  ((update_price_change_policy [wPool1] { wPool1 with price := 2 }).2.2.1 wPool1
    (by decide) (by decide) (by decide)).2 (by norm_num [wPool1])

/-- C9: when a price-change event passes both the threshold and the
cooldown check, the Coordinator advances `last_trigger` to the current
instant before the non-blocking send; if `try_send` fails because the
Calculator is busy, `last_trigger` stays advanced, so a further
qualifying event within the next cooldown window is not dispatched even
though no task was actually dispatched for the first event. -/
theorem coordinator_cooldown_after_failed_send
    (config : CoordinatorConfig) (last_trigger now now2 : Nat)
    (event event2 : PriceChangeEvent) (busy2 : Bool)
    (hthr : config.high_threshold_percent / 100 < event.price_change_percent)
    (hcool : config.cooldown_ms ≤ now - last_trigger)
    (hwin : now2 - now < config.cooldown_ms) :
    (handle_event config last_trigger now event true).1 = now
    ∧ (handle_event config last_trigger now event true).2 = false
    ∧ (handle_event config (handle_event config last_trigger now event true).1
        now2 event2 busy2).2 = false := by
  have h1 : handle_event config last_trigger now event true = (now, false) := by
    simp only [handle_event, if_pos hthr, if_pos hcool, Bool.not_true]
  refine ⟨by rw [h1], by rw [h1], ?_⟩
  rw [h1]
  simp only [handle_event]
  have hno : ¬ config.cooldown_ms ≤ now2 - now := by omega
  by_cases h2 : config.high_threshold_percent / 100 < event2.price_change_percent
  · rw [if_pos h2, if_neg hno]
  · rw [if_neg h2]

/-- Witness for C9 at the default configuration: an event with 0.3 %
change at t = 100 ms (cooldown satisfied against `last_trigger = 0`),
Calculator busy, followed by a second qualifying event at t = 110 ms. -/
theorem coordinator_cooldown_after_failed_send_witness :
    (handle_event CoordinatorConfig.default_config 0 100
        { pool_id := "e1", pool_name := "SOL/USDC", pair := "SOL/USDC",
          price_change_percent := 0.003, old_price := some 100, new_price := 100.3 }
        true).1 = 100
    ∧ (handle_event CoordinatorConfig.default_config 0 100
        { pool_id := "e1", pool_name := "SOL/USDC", pair := "SOL/USDC",
          price_change_percent := 0.003, old_price := some 100, new_price := 100.3 }
        true).2 = false
    ∧ (handle_event CoordinatorConfig.default_config
        (handle_event CoordinatorConfig.default_config 0 100
          { pool_id := "e1", pool_name := "SOL/USDC", pair := "SOL/USDC",
            price_change_percent := 0.003, old_price := some 100, new_price := 100.3 }
          true).1
        110
        { pool_id := "e2", pool_name := "SOL/USDT", pair := "SOL/USDT",
          price_change_percent := 0.004, old_price := some 50, new_price := 50.2 }
        false).2 = false :=
  coordinator_cooldown_after_failed_send CoordinatorConfig.default_config 0 100 110
    { pool_id := "e1", pool_name := "SOL/USDC", pair := "SOL/USDC",
      price_change_percent := 0.003, old_price := some 100, new_price := 100.3 }
    { pool_id := "e2", pool_name := "SOL/USDT", pair := "SOL/USDT",
      price_change_percent := 0.004, old_price := some 50, new_price := 50.2 }
    false (by norm_num [CoordinatorConfig.default_config])
    (by norm_num [CoordinatorConfig.default_config])
    (by norm_num [CoordinatorConfig.default_config])

/-- The reconstruction walk never performs more iterations than its
fuel. -/
theorem bf_walk_count_le (parent : String → Option (String × bellman_ford.Edge)) :
    ∀ (fuel : Nat) (visited toks : List String) (eds : List bellman_ford.Edge)
      (current : String),
      (bellman_ford.walk parent fuel visited toks eds current).2 ≤ fuel := by
  intro fuel
  induction fuel with
  | zero =>
      intro visited toks eds current
      simp [bellman_ford.walk]
  | succ n ih =>
      intro visited toks eds current
      simp only [bellman_ford.walk]
      split
      · simp
      · split
        · simpa using Nat.succ_le_succ (ih _ _ _ _)
        · simp

/-- C8: negative-cycle reconstruction terminates for all inputs,
including cyclic or corrupted predecessor maps: the back-walk in
`extract_cycle` performs at most `MAX_CYCLE_ITERATIONS = 20`
iterations, and when the walk aborts at the cap, `extract_cycle`
rejects the candidate (returns `none`) instead of looping. -/
theorem extract_cycle_iteration_cap
    (parent : String → Option (String × bellman_ford.Edge))
    (start_token : String) (trigger_edge : bellman_ford.Edge) (thr : ℚ) :
    (bellman_ford.walk parent bellman_ford.MAX_CYCLE_ITERATIONS [] [] [] start_token).2
      ≤ bellman_ford.MAX_CYCLE_ITERATIONS
    ∧ ((bellman_ford.walk parent bellman_ford.MAX_CYCLE_ITERATIONS [] [] [] start_token).1
          = none →
        bellman_ford.extract_cycle thr parent start_token trigger_edge = none) := by
  refine ⟨bf_walk_count_le parent _ _ _ _ _, ?_⟩
  intro h
  simp only [bellman_ford.extract_cycle, h]

/-- Witness for C8: on the 20-link chain parent map, the walk hits the
cap and `extract_cycle` rejects the candidate. -/
theorem extract_cycle_iteration_cap_witness :
    bellman_ford.extract_cycle (1/10000) wChain "t0" wEdge = none
    ∧ (bellman_ford.walk wChain bellman_ford.MAX_CYCLE_ITERATIONS [] [] [] "t0").2
        ≤ bellman_ford.MAX_CYCLE_ITERATIONS := by
  have h : (bellman_ford.walk wChain bellman_ford.MAX_CYCLE_ITERATIONS [] [] [] "t0").1
      = none := by
    with_unfolding_all rfl
  exact ⟨(extract_cycle_iteration_cap wChain "t0" wEdge (1/10000)).2 h,
         (extract_cycle_iteration_cap wChain "t0" wEdge (1/10000)).1⟩

/-- Counterexample for C1: with the logarithm abstracted as
`lnf := fun x => x`, the two edges built from a price-2 pool on
"Raydium AMM V4" (venue fee `0.0025 = 1/400`) carry weights
`[-(1/2), -2]`, i.e. `-(lnf r)` for the forward rate `r` of each
direction — not `-(lnf (r * (1 - f)))`: for the `base → quote` edge the
claimed weight would be `-(2 * (1 - 1/400)) = -399/200 ≠ -2`.  The
venue fee is NOT part of the edge weight. -/
theorem bf_edge_weight_cex :
    ((bellman_ford.build_graph (fun x => x) [wPoolC1]).1.map (fun e => e.weight))
      = [-(1/2 : ℚ), -2]
    ∧ ((bellman_ford.build_graph (fun x => x) [wPoolC1]).1.map
        (fun e => (e.original_price, bellman_ford.get_dex_fee e.pool.dex_name)))
      = [((1/2 : ℚ), (1/400 : ℚ)), (2, 1/400)]
    ∧ ¬ (∀ e ∈ (bellman_ford.build_graph (fun x => x) [wPoolC1]).1,
          e.weight
            = -((fun x => x) (e.original_price * (1 - bellman_ford.get_dex_fee e.pool.dex_name)))) := by
  refine ⟨?_, ?_, ?_⟩ <;> exact of_decide_eq_true (by with_unfolding_all rfl)

/-- C1 (amended): every edge built by `build_graph` has weight
`-(lnf r)` where `r` is the forward rate (`original_price`) for that
direction and `lnf` abstracts `f64::ln`; the venue fee does not enter
the edge weight (it is applied later, during path simulation by
`cycle_to_path`). -/
theorem bf_edge_weight_formula (lnf : ℚ → ℚ) (pools : List PoolPrice) :
    ∀ e ∈ (bellman_ford.build_graph lnf pools).1, e.weight = -(lnf e.original_price) := by
  suffices h : ∀ (ps : List PoolPrice) (acc : List bellman_ford.Edge × List String),
      (∀ e ∈ acc.1, e.weight = -(lnf e.original_price)) →
      ∀ e ∈ (ps.foldl (bellman_ford.build_graph_step lnf) acc).1,
        e.weight = -(lnf e.original_price) by
    exact h pools ([], []) (by simp)
  intro ps
  induction ps with
  | nil =>
      intro acc hacc
      simpa using hacc
  | cons p ps ih =>
      intro acc hacc
      simp only [List.foldl_cons]
      apply ih
      unfold bellman_ford.build_graph_step
      split
      · intro e he
        simp only [List.mem_append, List.mem_cons, List.mem_singleton,
          List.not_mem_nil, or_false] at he
        rcases he with he | rfl | rfl
        · exact hacc e he
        · rfl
        · rfl
      · exact hacc

set_option maxRecDepth 8000 in
/-- Witness for C1 (amended): the first edge of the concrete graph. -/
theorem bf_edge_weight_formula_witness :
    ((bellman_ford.build_graph (fun x => x + 1) [wPoolC1]).1.headD wEdge).weight
      = -((fun x => x + 1)
          ((bellman_ford.build_graph (fun x => x + 1) [wPoolC1]).1.headD wEdge).original_price) :=
  bf_edge_weight_formula (fun x => x + 1) [wPoolC1]
    ((bellman_ford.build_graph (fun x => x + 1) [wPoolC1]).1.headD wEdge)
    (of_decide_eq_true (by with_unfolding_all rfl))

/-- Counterexample for C3: a pool with `mid_price = 0` is NOT excluded
from cycle search: `build_graph` derives two directed edges from it and
the BFS scanner's `get_next_edges` offers it as a next hop. -/
theorem zero_price_pool_cex :
    wPoolC3.price = 0
    ∧ ((bellman_ford.build_graph (fun x => x) [wPoolC3]).1).length = 2
    ∧ (bfs.get_next_edges "USDC" [wPoolC3]).map (fun e => (e.from_token, e.to_token))
        = [("USDC", "SOL")] := by
  refine ⟨?_, ?_, ?_⟩ <;> exact of_decide_eq_true (by with_unfolding_all rfl)

/-- A fold whose step only appends to the accumulator distributes over
the accumulator. -/
theorem foldl_append_homo {α β : Type} (step : List α → β → List α)
    (h : ∀ acc x, step acc x = acc ++ step [] x) (ps : List β) :
    ∀ (a b : List α), ps.foldl step (a ++ b) = a ++ ps.foldl step b := by
  induction ps with
  | nil => intro a b; simp
  | cons p ps ih =>
      intro a b
      simp only [List.foldl_cons]
      rw [h (a ++ b) p, h b p, List.append_assoc]
      exact ih a (b ++ step [] p)

/-- The `get_next_edges` step only appends to the accumulator. -/
theorem bfs_get_next_edges_step_append (current_token : String)
    (acc : List bfs.PoolEdge) (pool : PoolPrice) :
    bfs.get_next_edges_step current_token acc pool
      = acc ++ bfs.get_next_edges_step current_token [] pool := by
  unfold bfs.get_next_edges_step
  cases hsplit : pool.pair.splitOn "/" with
  | nil => simp
  | cons x xs =>
      cases xs with
      | nil => simp
      | cons y ys =>
          cases ys with
          | nil => simp
          | cons z zs => simp

/-- C3 (amended): a `PoolPrice` with `mid_price = 0` is retained by the
state layer — inclusion in the consistent snapshot depends only on age
and slot, never on the price — but it is NOT excluded from cycle
search: `build_graph` derives exactly two edges from every pool whose
pair is well-formed, regardless of its price, and `get_next_edges`
offers every well-formed pool on the current token as a next hop,
regardless of its price. -/
theorem zero_price_pool_retained_and_scanned
    (lnf : ℚ → ℚ) (pools : List PoolPrice)
    (pool : PoolPrice) (b q : String)
    (now max_age max_spread : Nat) (entries : List PoolPrice) (p : PoolPrice) :
    ((bellman_ford.build_graph lnf pools).1).length
      = 2 * (pools.countP (fun p => (p.pair.splitOn "/").length == 2))
    ∧ (pool ∈ pools → pool.pair.splitOn "/" = [b, q] →
        ({ pool := pool, from_token := q, to_token := b } : bfs.PoolEdge)
          ∈ bfs.get_next_edges q pools)
    ∧ (p ∈ entries → now - p.last_update ≤ max_age →
        get_latest_slot entries - p.slot ≤ max_spread →
        get_latest_slot entries ≠ 0 →
        p ∈ get_consistent_snapshot now entries max_age max_spread) := by
  refine ⟨?_, ?_, ?_⟩
  · suffices h : ∀ (ps : List PoolPrice) (acc : List bellman_ford.Edge × List String),
        ((ps.foldl (bellman_ford.build_graph_step lnf) acc).1).length
          = acc.1.length + 2 * (ps.countP (fun p => (p.pair.splitOn "/").length == 2)) by
      simpa using h pools ([], [])
    intro ps
    induction ps with
    | nil =>
        intro acc
        simp
    | cons p ps ih =>
        intro acc
        simp only [List.foldl_cons, List.countP_cons]
        rw [ih]
        unfold bellman_ford.build_graph_step
        cases hsplit : p.pair.splitOn "/" with
        | nil => simp [hsplit]
        | cons x xs =>
            cases xs with
            | nil => simp [hsplit]
            | cons y ys =>
                cases ys with
                | nil => simp [hsplit, Nat.mul_add, Nat.add_assoc, Nat.add_comm]
                | cons z zs => simp [hsplit]
  · intro hmem hsplit
    induction pools with
    | nil => cases hmem
    | cons hd tl ih =>
        have hcons : bfs.get_next_edges q (hd :: tl)
            = bfs.get_next_edges_step q [] hd ++ bfs.get_next_edges q tl := by
          unfold bfs.get_next_edges
          simp only [List.foldl_cons]
          rw [bfs_get_next_edges_step_append q [] hd]
          simp only [List.nil_append]
          have := foldl_append_homo (bfs.get_next_edges_step q)
            (bfs_get_next_edges_step_append q) tl (bfs.get_next_edges_step q [] hd) []
          simpa using this
        rw [hcons]
        rcases List.mem_cons.mp hmem with rfl | htl
        · apply List.mem_append_left
          unfold bfs.get_next_edges_step
          rw [hsplit]
          simp
        · exact List.mem_append_right _ (ih htl)
  · intro hmem hage hslot hlatest
    simp only [get_consistent_snapshot]
    rw [if_neg hlatest]
    rw [List.mem_filter]
    refine ⟨hmem, ?_⟩
    simp only [Bool.and_eq_true, decide_eq_true_eq]
    exact ⟨hage, hslot⟩

/-- Witness for C3 (amended) at the concrete zero-price pool: it yields
a BFS edge and is included in the consistent snapshot, while its price
is 0. -/
theorem zero_price_pool_retained_and_scanned_witness :
    ((bellman_ford.build_graph (fun x => x) [wPoolC3]).1).length
      = 2 * ([wPoolC3].countP (fun p => (p.pair.splitOn "/").length == 2))
    ∧ ({ pool := wPoolC3, from_token := "USDC", to_token := "SOL" } : bfs.PoolEdge)
        ∈ bfs.get_next_edges "USDC" [wPoolC3]
    ∧ wPoolC3 ∈ get_consistent_snapshot 100 [wPoolC3] 2000 10 :=
  ⟨(zero_price_pool_retained_and_scanned (fun x => x) [wPoolC3] wPoolC3 "SOL" "USDC"
      100 2000 10 [wPoolC3] wPoolC3).1,
   (zero_price_pool_retained_and_scanned (fun x => x) [wPoolC3] wPoolC3 "SOL" "USDC"
      100 2000 10 [wPoolC3] wPoolC3).2.1
     (by decide) (of_decide_eq_true (by with_unfolding_all rfl)),
   (zero_price_pool_retained_and_scanned (fun x => x) [wPoolC3] wPoolC3 "SOL" "USDC"
      100 2000 10 [wPoolC3] wPoolC3).2.2
     (by decide) (by decide) (by decide) (by decide)⟩

/-- Counterexample for C2: for a store whose only entry is 4 s old (at
`now = 10000`), the consistent snapshot (2 s) is empty and
`Calculator::calculate` returns the empty result — even though the
fresh snapshot with the claimed 5 s bound is non-empty.  There is no
downgrade to the fresh snapshot. -/
theorem calculate_no_fresh_fallback_cex :
    calculate CalculatorConfig.default_config (fun x => x) 10000 [wPoolStale] = []
    ∧ get_fresh_prices 10000 [wPoolStale] 5000 = [wPoolStale]
    ∧ get_fresh_prices 10000 [wPoolStale] 5000 ≠ [] := by
  have hsnap : get_consistent_snapshot 10000 [wPoolStale] 2000 10 = [] := by decide
  refine ⟨?_, by decide, by decide⟩
  simp only [calculate, hsnap]
  simp

/-- C2 (amended): `Calculator::calculate` takes the consistent snapshot
with `max_age = 2000 ms`, `max_slot_spread = 10` and returns the empty
result whenever that snapshot is empty; it never falls back to a fresh
snapshot. -/
theorem calculate_empty_on_empty_consistent
    (config : CalculatorConfig) (lnf : ℚ → ℚ) (now : Nat) (entries : List PoolPrice)
    (h : get_consistent_snapshot now entries 2000 10 = []) :
    calculate config lnf now entries = [] := by
  simp only [calculate, h]
  simp

/-- Witness for C2 (amended) at the concrete stale store. -/
theorem calculate_empty_on_empty_consistent_witness :
    calculate CalculatorConfig.default_config (fun x => x + 2) 10000 [wPoolStale] = [] :=
  calculate_empty_on_empty_consistent CalculatorConfig.default_config (fun x => x + 2)
    10000 [wPoolStale] (of_decide_eq_true (by with_unfolding_all rfl))

/-- Deduplication only drops elements: membership in the output implies
membership in the input. -/
theorem dedup_fold_subset {α β : Type} [DecidableEq β] (sig : α → β) (xs : List α) :
    ∀ x ∈ dedup_fold sig xs, x ∈ xs := by
  suffices h : ∀ (ys : List α) (acc : List α × List β),
      ∀ x ∈ (ys.foldl (fun acc x =>
          if sig x ∈ acc.2 then acc else (acc.1 ++ [x], sig x :: acc.2)) acc).1,
        x ∈ acc.1 ∨ x ∈ ys by
    intro x hx
    rcases h xs ([], []) x hx with h0 | h1
    · simp at h0
    · exact h1
  intro ys
  induction ys with
  | nil =>
      intro acc x hx
      exact Or.inl hx
  | cons a as ih =>
      intro acc x hx
      simp only [List.foldl_cons] at hx
      rcases ih _ x hx with h0 | h1
      · by_cases hs : sig a ∈ acc.2
        · rw [if_pos hs] at h0
          exact Or.inl h0
        · rw [if_neg hs] at h0
          simp only [List.mem_append, List.mem_singleton] at h0
          rcases h0 with h0 | rfl
          · exact Or.inl h0
          · exact Or.inr (List.mem_cons_self _ _)
      · exact Or.inr (List.mem_cons_of_mem _ h1)

/-- Membership through descending insertion. -/
theorem mem_insert_desc (key : ArbitragePath → ℚ) (x y : ArbitragePath) :
    ∀ l, y ∈ insert_desc key x l → y = x ∨ y ∈ l := by
  intro l
  induction l with
  | nil =>
      intro h
      simp only [insert_desc, List.mem_singleton] at h
      exact Or.inl h
  | cons a as ih =>
      intro h
      simp only [insert_desc] at h
      split at h
      · rcases List.mem_cons.mp h with rfl | h2
        · exact Or.inl rfl
        · exact Or.inr h2
      · rcases List.mem_cons.mp h with rfl | h2
        · exact Or.inr (List.mem_cons_self _ _)
        · rcases ih h2 with h3 | h3
          · exact Or.inl h3
          · exact Or.inr (List.mem_cons_of_mem _ h3)

/-- The descending sort is a permutation-style reordering: membership
in the output implies membership in the input. -/
theorem mem_sort_by_desc (key : ArbitragePath → ℚ) (l : List ArbitragePath) :
    ∀ p ∈ sort_by_desc key l, p ∈ l := by
  unfold sort_by_desc
  induction l with
  | nil => intro p hp; exact hp
  | cons a as ih =>
      intro p hp
      simp only [List.foldr_cons] at hp
      rcases mem_insert_desc key a p _ hp with rfl | h2
      · exact List.mem_cons_self _ _
      · exact List.mem_cons_of_mem _ (ih p h2)

/-- The BFS conversion fold emits one `RouteStep` per edge. -/
theorem bfs_convert_fold_length (edges : List bfs.PoolEdge) :
    ∀ acc : List RouteStep × ℚ,
      ((edges.foldl bfs.convert_step acc).1).length = acc.1.length + edges.length := by
  induction edges with
  | nil => intro acc; simp
  | cons e es ih =>
      intro acc
      simp only [List.foldl_cons]
      rw [ih]
      simp only [bfs.convert_step, List.length_append, List.length_cons,
        List.length_singleton, List.length_nil]
      omega

/-- What `convert_to_arbitrage_path` guarantees about its output. -/
theorem bfs_convert_spec (node : bfs.PathNode) (init : ℚ) (p : ArbitragePath)
    (h : bfs.convert_to_arbitrage_path node init = some p) :
    p.steps.length = node.edges.length
    ∧ node.tokens.head? = some p.start_token
    ∧ node.tokens.getLast? = some p.end_token := by
  unfold bfs.convert_to_arbitrage_path at h
  split at h
  · cases h
  · split at h
    case _ first_token last_token hhead hlast =>
      rw [Option.some_inj] at h
      subst h
      refine ⟨?_, hhead, hlast⟩
      simpa using bfs_convert_fold_length node.edges ([], init)
    case _ =>
      cases h

/-- Expansion preserves the frontier invariant: every child extends its
parent by exactly one token and one edge and keeps the start token at
the head. -/
theorem bfs_expand_fold_preserves (start : String) (node : bfs.PathNode)
    (hnode : bfs_node_ok start node) (edges : List bfs.PoolEdge) :
    ∀ (acc : List bfs.PathNode × List String),
      (∀ n ∈ acc.1, bfs_node_ok start n) →
      ∀ n ∈ (edges.foldl (bfs.expand_step start node) acc).1, bfs_node_ok start n := by
  induction edges with
  | nil =>
      intro acc hacc
      exact hacc
  | cons e es ih =>
      intro acc hacc
      simp only [List.foldl_cons]
      apply ih
      intro n hn
      simp only [bfs.expand_step] at hn
      split at hn
      · exact hacc n hn
      · split at hn
        · exact hacc n hn
        · split at hn
          · exact hacc n hn
          · simp only [List.mem_append, List.mem_singleton] at hn
            rcases hn with hn | rfl
            · exact hacc n hn
            · obtain ⟨hhead, hlen⟩ := hnode
              obtain ⟨t, ts, ht⟩ : ∃ t ts, node.tokens = t :: ts := by
                cases h' : node.tokens with
                | nil => rw [h'] at hhead; cases hhead
                | cons t ts => exact ⟨t, ts, rfl⟩
              have htstart : t = start := by
                rw [ht] at hhead
                simpa using hhead
              have hlen2 : node.edges.length + 1 = ts.length + 1 := by
                rw [ht] at hlen
                simpa using hlen
              constructor
              · simp [bfs_node_ok, ht, htstart]
              · simp [ht, List.length_append]
                omega

/-- The children produced by `expand` satisfy the frontier invariant. -/
theorem bfs_expand_preserves (start current : String) (node : bfs.PathNode)
    (pools : List PoolPrice) (visited : List String)
    (hnode : bfs_node_ok start node) :
    ∀ n ∈ (bfs.expand start current node pools visited).1, bfs_node_ok start n := by
  unfold bfs.expand
  exact bfs_expand_fold_preserves start node hnode _ ([], visited) (by simp)

/-- Invariant propagation through the BFS loop: starting from a frontier
of well-formed nodes and an output list of closed in-bound paths, every
path the loop ever returns is a closed cycle with hop count in
`[2, max_depth]` (in fact at most `max_depth - 1`: a node at the depth
cap is dropped before the closure check). -/
theorem bfs_loop_preserves (maxD : Nat) (minRoi early : ℚ) (start : String)
    (pools : List PoolPrice) (init : ℚ) :
    ∀ (fuel : Nat) (queue : List bfs.PathNode) (visited : List String)
      (results : List ArbitragePath),
      (∀ n ∈ queue, bfs_node_ok start n) →
      (∀ p ∈ results, path_hops_ok maxD p) →
      ∀ p ∈ bfs.bfs_loop maxD minRoi early start pools init fuel queue visited results,
        path_hops_ok maxD p := by
  intro fuel
  induction fuel with
  | zero =>
      intro queue visited results _ hr p hp
      simp only [bfs.bfs_loop] at hp
      exact hr p hp
  | succ f ih =>
      intro queue visited results hq hr p hp
      cases queue with
      | nil =>
          simp only [bfs.bfs_loop] at hp
          exact hr p hp
      | cons node rest =>
          have hnode : bfs_node_ok start node := hq node (List.mem_cons_self _ _)
          have hrest : ∀ n ∈ rest, bfs_node_ok start n :=
            fun n hn => hq n (List.mem_cons_of_mem _ hn)
          simp only [bfs.bfs_loop] at hp
          by_cases h1 : maxD ≤ node.tokens.length - 1
          · rw [if_pos h1] at hp
            exact ih rest visited results hrest hr p hp
          · rw [if_neg h1] at hp
            by_cases h2 : 0 < node.tokens.length - 1
                ∧ (node.amount - init) / init * 100 < early
            · rw [if_pos h2] at hp
              exact ih rest visited results hrest hr p hp
            · rw [if_neg h2] at hp
              cases hlast : node.tokens.getLast? with
              | none =>
                  simp only [hlast] at hp
                  exact ih rest visited results hrest hr p hp
              | some current =>
                  simp only [hlast] at hp
                  by_cases h3 : 2 ≤ node.tokens.length - 1 ∧ current = start
                  · rw [if_pos h3] at hp
                    cases hconv : bfs.convert_to_arbitrage_path node init with
                    | none =>
                        simp only [hconv] at hp
                        exact ih rest visited results hrest hr p hp
                    | some ap =>
                        simp only [hconv] at hp
                        have hap : path_hops_ok maxD ap := by
                          obtain ⟨hsteps, hhead, hlast2⟩ := bfs_convert_spec node init ap hconv
                          obtain ⟨hhead0, hlen⟩ := hnode
                          have hstart : ap.start_token = start := by
                            rw [hhead0] at hhead
                            exact (Option.some_inj.mp hhead).symm
                          have hend : ap.end_token = current := by
                            rw [hlast] at hlast2
                            exact (Option.some_inj.mp hlast2).symm
                          refine ⟨by rw [hstart, hend, h3.2], ?_, ?_⟩
                          · rw [hsteps]
                            omega
                          · rw [hsteps]
                            omega
                        by_cases h4 : minRoi ≤ ap.roi_percent
                        · rw [if_pos h4] at hp
                          refine ih rest visited (results ++ [ap]) hrest ?_ p hp
                          intro q hqmem
                          rcases List.mem_append.mp hqmem with hql | hqr
                          · exact hr q hql
                          · rw [List.mem_singleton.mp hqr]
                            exact hap
                        · rw [if_neg h4] at hp
                          exact ih rest visited results hrest hr p hp
                  · rw [if_neg h3] at hp
                    refine ih _ _ results ?_ hr p hp
                    intro n hn
                    rcases List.mem_append.mp hn with hnl | hnr
                    · exact hrest n hnl
                    · exact bfs_expand_preserves start current node pools visited hnode n hnr

/-- Every path produced by a BFS run from one token is a closed cycle
with hop count in `[2, max_depth]`. -/
theorem bfs_from_token_hops (maxD : Nat) (minRoi : ℚ) (start : String)
    (pools : List PoolPrice) (init : ℚ) :
    ∀ p ∈ bfs.bfs_from_token maxD minRoi start pools init, path_hops_ok maxD p := by
  unfold bfs.bfs_from_token
  apply bfs_loop_preserves
  · intro n hn
    rw [List.mem_singleton.mp hn]
    exact ⟨rfl, rfl⟩
  · intro p hp
    cases hp

/-- Every path produced by `find_all_opportunities` is a closed cycle
with hop count in `[2, max_depth]`. -/
theorem bfs_find_all_hops (maxD : Nat) (minRoi : ℚ)
    (pools : List PoolPrice) (init : ℚ) :
    ∀ p ∈ bfs.find_all_opportunities maxD minRoi pools init, path_hops_ok maxD p := by
  intro p hp
  unfold bfs.find_all_opportunities at hp
  have hp2 := mem_sort_by_desc _ _ p hp
  have hp3 := dedup_fold_subset _ _ p hp2
  rw [List.mem_flatten] at hp3
  obtain ⟨l, hl, hpl⟩ := hp3
  rw [List.mem_map] at hl
  obtain ⟨t, _, rfl⟩ := hl
  exact bfs_from_token_hops maxD minRoi t pools init p hpl

/-- The reconstruction walk accumulates tokens and edges in lockstep. -/
theorem bf_walk_lengths (parent : String → Option (String × bellman_ford.Edge)) :
    ∀ (fuel : Nat) (visited toks : List String) (eds : List bellman_ford.Edge)
      (current : String) (T : List String) (E : List bellman_ford.Edge),
      toks.length = eds.length →
      (bellman_ford.walk parent fuel visited toks eds current).1 = some (T, E) →
      T.length = E.length := by
  intro fuel
  induction fuel with
  | zero =>
      intro visited toks eds current T E _ h
      simp [bellman_ford.walk] at h
  | succ n ih =>
      intro visited toks eds current T E hlen h
      simp only [bellman_ford.walk] at h
      split at h
      · simp only [Option.some_inj, Prod.mk.injEq] at h
        obtain ⟨rfl, rfl⟩ := h
        exact hlen
      · split at h
        · exact ih _ _ _ _ T E (by simp [hlen]) h
        · simp only [Option.some_inj, Prod.mk.injEq] at h
          obtain ⟨rfl, rfl⟩ := h
          exact hlen

/-- When `find_idx_from` finds nothing, no element satisfies the
predicate. -/
theorem bf_find_idx_from_none (p : String → Bool) :
    ∀ (l : List String) (k : Nat), bellman_ford.find_idx_from p l k = none →
      ∀ x ∈ l, p x = false := by
  intro l
  induction l with
  | nil =>
      intro k _ x hx
      cases hx
  | cons a as ih =>
      intro k h x hx
      simp only [bellman_ford.find_idx_from] at h
      split at h
      · cases h
      · rcases List.mem_cons.mp hx with rfl | hx2
        · simpa using ‹¬ p x = true›
        · exact ih (k + 1) h x hx2

/-- What a successful `find_idx_from` search guarantees: the returned
index is past the offset, in bounds, hits an element satisfying the
predicate, and is minimal. -/
theorem bf_find_idx_from_spec (p : String → Bool) :
    ∀ (l : List String) (k i : Nat), bellman_ford.find_idx_from p l k = some i →
      k ≤ i ∧ i - k < l.length ∧ (∃ x, l[i - k]? = some x ∧ p x = true)
      ∧ ∀ j y, j < i - k → l[j]? = some y → p y = false := by
  intro l
  induction l with
  | nil =>
      intro k i h
      cases h
  | cons a as ih =>
      intro k i h
      simp only [bellman_ford.find_idx_from] at h
      split at h
      · obtain rfl : k = i := Option.some_inj.mp h
        refine ⟨le_refl _, by simp, ⟨a, by simp, ‹p a = true›⟩, ?_⟩
        intro j y hj _
        omega
      · rename_i hpa
        obtain ⟨hk, hlt, ⟨x, hx, hpx⟩, hmin⟩ := ih (k + 1) i h
        have hik : i - k = (i - (k + 1)) + 1 := by omega
        refine ⟨by omega, by simp; omega, ⟨x, ?_, hpx⟩, ?_⟩
        · rw [hik, List.getElem?_cons_succ]
          exact hx
        · intro j y hj hy
          cases j with
          | zero =>
              simp only [List.getElem?_cons_zero, Option.some_inj] at hy
              subst hy
              simpa using hpa
          | succ j2 =>
              rw [List.getElem?_cons_succ] at hy
              exact hmin j2 y (by omega) hy

/-- Length accounting for the cycle-trimming step: whenever the trimmed
token list is a closed walk of length at least 2, its edge list is one
shorter.  (When the duplicate search fails, the list has no duplicates,
which contradicts closedness at length ≥ 2; when it succeeds, the slice
arithmetic gives the offset directly.) -/
theorem bf_trim_cycle_len (T : List String) (E : List bellman_ford.Edge)
    (hTE : T.length = E.length) :
    (bellman_ford.trim_cycle T E).1.head? = (bellman_ford.trim_cycle T E).1.getLast? →
    2 ≤ (bellman_ford.trim_cycle T E).1.length →
    (bellman_ford.trim_cycle T E).2.length + 1 = (bellman_ford.trim_cycle T E).1.length := by
  unfold bellman_ford.trim_cycle
  cases hfind : bellman_ford.find_idx_from (fun t => decide (1 < T.count t)) T 0 with
  | none =>
      dsimp only
      intro hheq hlen
      exfalso
      have hnodup : ∀ x ∈ T, ¬ (1 < T.count x) := by
        intro x hx
        have h := bf_find_idx_from_none _ T 0 hfind x hx
        simpa using h
      cases T with
      | nil => simp at hlen
      | cons t rest =>
          cases rest with
          | nil => simp at hlen
          | cons r2 rest2 =>
              have hheq2 : (r2 :: rest2).getLast? = some t := by
                have : (t :: r2 :: rest2).head? = some t := rfl
                rw [this] at hheq
                exact hheq.symm
              have hmem : t ∈ r2 :: rest2 := List.mem_of_mem_getLast? hheq2
              have hpos : 0 < (r2 :: rest2).count t := List.count_pos_iff.mpr hmem
              have hcount : 1 < (t :: r2 :: rest2).count t := by
                rw [List.count_cons_self]
                omega
              exact hnodup t (List.mem_cons_self _ _) hcount
  | some i =>
      obtain ⟨-, hlt, ⟨ti, hti, hpti⟩, hmin⟩ := bf_find_idx_from_spec _ T 0 i hfind
      simp only [Nat.sub_zero] at hlt hti hmin
      dsimp only
      rw [hti]
      dsimp only
      have hcount : 1 < T.count ti := by simpa using hpti
      cases hfind2 : bellman_ford.find_idx_from (fun t => t == ti) (T.drop (i + 1)) 0 with
      | none =>
          dsimp only
          intro hheq hlen
          exfalso
          have hall := bf_find_idx_from_none _ _ 0 hfind2
          have hdrop : T.drop i = ti :: T.drop (i + 1) := by
            have hgi : T[i] = ti := by
              have h2 := List.getElem?_eq_some.mp hti
              exact h2.2
            rw [List.drop_eq_getElem_cons hlt, hgi]
          have hcsplit : T.count ti
              = (T.take i).count ti + (1 + (T.drop (i + 1)).count ti) := by
            conv_lhs => rw [← List.take_append_drop i T]
            rw [List.count_append, hdrop]
            simp [List.count_cons_self]
            omega
          have htake0 : (T.take i).count ti = 0 := by
            by_contra hpos
            have hp2 : 0 < (T.take i).count ti := Nat.pos_of_ne_zero hpos
            have hmemtake : ti ∈ T.take i := List.count_pos_iff.mp hp2
            obtain ⟨j, hjlen, hgetj⟩ := List.mem_iff_getElem.mp hmemtake
            have hji : j < i := by
              have := hjlen
              simp only [List.length_take] at this
              omega
            have hTj : T[j]? = some ti := by
              rw [← List.getElem?_take_of_lt hji]
              rw [List.getElem?_eq_getElem hjlen]
              rw [hgetj]
            have hfalse := hmin j ti hji hTj
            simp only [decide_eq_false_iff_not] at hfalse
            exact hfalse hcount
          have hdroppos : 0 < (T.drop (i + 1)).count ti := by omega
          have hmemdrop : ti ∈ T.drop (i + 1) := List.count_pos_iff.mp hdroppos
          have hfalse := hall ti hmemdrop
          simp at hfalse
      | some pIdx =>
          dsimp only
          obtain ⟨-, hplt, -, -⟩ := bf_find_idx_from_spec _ _ 0 pIdx hfind2
          simp only [Nat.sub_zero, List.length_drop] at hplt
          intro _ _
          simp only [List.length_take, List.length_drop]
          omega

/-- What a successful `extract_cycle` guarantees: the token list is a
closed walk, and (at length ≥ 2) carries one edge fewer than tokens. -/
theorem bf_extract_cycle_spec (thr : ℚ)
    (parent : String → Option (String × bellman_ford.Edge)) (s : String)
    (trig : bellman_ford.Edge) (c : bellman_ford.NegativeCycle)
    (h : bellman_ford.extract_cycle thr parent s trig = some c) :
    c.tokens.head? = c.tokens.getLast?
    ∧ (2 ≤ c.tokens.length → c.edges.length + 1 = c.tokens.length) := by
  unfold bellman_ford.extract_cycle at h
  cases hw : (bellman_ford.walk parent bellman_ford.MAX_CYCLE_ITERATIONS [] [] [] s).1 with
  | none =>
      rw [hw] at h
      cases h
  | some te =>
      obtain ⟨toks, eds⟩ := te
      rw [hw] at h
      dsimp only at h
      have hlen0 : toks.length = eds.length :=
        bf_walk_lengths parent _ _ _ _ _ _ _ rfl hw
      have hTE : ((toks ++ [trig.to_token]).reverse).length
          = ((eds ++ [trig]).reverse).length := by
        simp [hlen0]
      split at h
      · cases h
      · split at h
        · cases h
        · split at h
          · cases h
          · rename_i hne
            rw [Option.some_inj] at h
            subst h
            push_neg at hne
            refine ⟨hne, ?_⟩
            intro h2
            exact bf_trim_cycle_len _ _ hTE hne h2

/-- The detection fold only accumulates cycles of token length in
`[2, max_hops]` carrying one edge fewer than tokens. -/
theorem bf_detect_fold_spec (max_hops : Nat) (thr : ℚ)
    (dist : String → Option ℚ) (parent : String → Option (String × bellman_ford.Edge))
    (edges : List bellman_ford.Edge) :
    ∀ acc : List bellman_ford.NegativeCycle × List String,
      (∀ c ∈ acc.1, 2 ≤ c.tokens.length ∧ c.tokens.length ≤ max_hops
        ∧ c.edges.length + 1 = c.tokens.length) →
      ∀ c ∈ (edges.foldl (bellman_ford.detect_step max_hops thr dist parent) acc).1,
        2 ≤ c.tokens.length ∧ c.tokens.length ≤ max_hops
        ∧ c.edges.length + 1 = c.tokens.length := by
  induction edges with
  | nil =>
      intro acc hacc
      exact hacc
  | cons e es ih =>
      intro acc hacc
      simp only [List.foldl_cons]
      apply ih
      intro c hc
      unfold bellman_ford.detect_step at hc
      split at hc
      · split at hc
        · exact hacc c hc
        · cases hex : bellman_ford.extract_cycle thr parent e.to_token e with
          | none =>
              rw [hex] at hc
              exact hacc c hc
          | some cyc =>
              rw [hex] at hc
              dsimp only at hc
              split at hc
              · rename_i hhops
                rcases List.mem_append.mp hc with h1 | h2
                · exact hacc c h1
                · rw [List.mem_singleton.mp h2]
                  obtain ⟨-, hlen⟩ := bf_extract_cycle_spec thr parent e.to_token e cyc hex
                  exact ⟨hhops.1, hhops.2, hlen hhops.1⟩
              · exact hacc c hc
      · exact hacc c hc

/-- Every cycle reported by `detect_cycles_from_token` has its token
length in `[2, max_hops]` and one edge fewer than tokens. -/
theorem bf_detect_spec (max_hops : Nat) (thr : ℚ) (s : String)
    (edges : List bellman_ford.Edge) (tokens : List String)
    (cycles : List bellman_ford.NegativeCycle)
    (h : bellman_ford.detect_cycles_from_token max_hops thr s edges tokens = some cycles) :
    ∀ c ∈ cycles, 2 ≤ c.tokens.length ∧ c.tokens.length ≤ max_hops
      ∧ c.edges.length + 1 = c.tokens.length := by
  unfold bellman_ford.detect_cycles_from_token at h
  dsimp only at h
  split at h
  · cases h
  · rw [Option.some_inj] at h
    subst h
    exact bf_detect_fold_spec max_hops thr _ _ edges ([], []) (by simp)

/-- The Bellman-Ford path-simulation fold emits one `RouteStep` per
edge. -/
theorem bf_path_fold_length (edges : List bellman_ford.Edge) :
    ∀ acc : List RouteStep × ℚ,
      ((edges.foldl bellman_ford.path_step acc).1).length = acc.1.length + edges.length := by
  induction edges with
  | nil =>
      intro acc
      simp
  | cons e es ih =>
      intro acc
      simp only [List.foldl_cons]
      rw [ih]
      simp only [bellman_ford.path_step, List.length_append, List.length_cons,
        List.length_singleton, List.length_nil]
      omega

/-- `cycle_to_path` emits one step per cycle edge. -/
theorem bf_cycle_to_path_spec (init : ℚ) (c : bellman_ford.NegativeCycle)
    (p : ArbitragePath) (h : bellman_ford.cycle_to_path init c = some p) :
    p.steps.length = c.edges.length := by
  unfold bellman_ford.cycle_to_path at h
  split at h
  · cases h
  · split at h
    case _ start_token last_token hhead hlast =>
      rw [Option.some_inj] at h
      subst h
      simpa using bf_path_fold_length c.edges ([], init)
    case _ =>
      cases h

/-- Every path produced by `find_all_cycles` is a closed cycle with hop
count in `[2, max_hops]` (in fact at most `max_hops - 1`). -/
theorem bf_find_all_hops (max_hops : Nat) (minRoi : ℚ) (lnf : ℚ → ℚ)
    (pools : List PoolPrice) (init : ℚ) :
    ∀ p ∈ bellman_ford.find_all_cycles max_hops minRoi lnf pools init,
      path_hops_ok max_hops p := by
  intro p hp
  unfold bellman_ford.find_all_cycles at hp
  dsimp only at hp
  split at hp
  · cases hp
  · have hp1 := mem_sort_by_desc _ _ p hp
    rw [List.mem_filter] at hp1
    obtain ⟨hpmem, hpcond⟩ := hp1
    simp only [Bool.and_eq_true, decide_eq_true_eq, ArbitragePath.is_valid,
      beq_iff_eq] at hpcond
    obtain ⟨⟨hse, h2⟩, -⟩ := hpcond
    rw [List.mem_filterMap] at hpmem
    obtain ⟨c, hcdedup, hcp⟩ := hpmem
    have hcmem := dedup_fold_subset _ _ c hcdedup
    rw [List.mem_flatten] at hcmem
    obtain ⟨l, hl, hcl⟩ := hcmem
    rw [List.mem_map] at hl
    obtain ⟨t, -, rfl⟩ := hl
    cases hdet : bellman_ford.detect_cycles_from_token max_hops (1/10000) t
        (bellman_ford.build_graph lnf pools).1 (bellman_ford.build_graph lnf pools).2 with
    | none =>
        rw [hdet] at hcl
        simp at hcl
    | some cycles =>
        rw [hdet] at hcl
        simp only [Option.getD_some] at hcl
        obtain ⟨hge2, hle, hrel⟩ := bf_detect_spec _ _ _ _ _ _ hdet c hcl
        have hsteps := bf_cycle_to_path_spec init c p hcp
        exact ⟨hse, h2, by omega⟩

/-- The head of a non-empty list is a member. -/
theorem headI_mem_of_ne_nil {α : Type} [Inhabited α] (l : List α) (h : l ≠ []) :
    l.headI ∈ l := by
  cases l with
  | nil => exact absurd rfl h
  | cons a as => simp

/-- C6: every `ArbitragePath` returned by `Calculator::calculate` — from
either scanner, after the merge and dedup — satisfies
`start_token = end_token` and has hop count between 2 and the
configured hop limit (bounded by the larger of the two scanners'
limits; each scanner individually respects its own limit, see
`bfs_find_all_hops` and `bf_find_all_hops`). -/
theorem calculate_paths_closed_bounded (config : CalculatorConfig) (lnf : ℚ → ℚ)
    (now : Nat) (entries : List PoolPrice) :
    ∀ p ∈ calculate config lnf now entries,
      p.start_token = p.end_token ∧ 2 ≤ p.steps.length
      ∧ p.steps.length ≤ max config.bfs_max_hops config.bf_max_hops := by
  intro p hp
  unfold calculate at hp
  dsimp only at hp
  split at hp
  · cases hp
  · have main : ∀ (bfsP bfP : List ArbitragePath),
        (∀ q ∈ bfsP, path_hops_ok config.bfs_max_hops q) →
        (∀ q ∈ bfP, path_hops_ok config.bf_max_hops q) →
        p ∈ (if bfsP ++ bfP = [] then []
             else calculator_deduplicate_paths (bfsP ++ bfP)) →
        p.start_token = p.end_token ∧ 2 ≤ p.steps.length
        ∧ p.steps.length ≤ max config.bfs_max_hops config.bf_max_hops := by
      intro bfsP bfP hb1 hb2 hmem
      split at hmem
      · cases hmem
      · unfold calculator_deduplicate_paths at hmem
        have hp2 := dedup_fold_subset _ _ p hmem
        rcases List.mem_append.mp hp2 with h | h
        · obtain ⟨hse, h2, hub⟩ := hb1 p h
          exact ⟨hse, h2, le_trans hub (le_max_left _ _)⟩
        · obtain ⟨hse, h2, hub⟩ := hb2 p h
          exact ⟨hse, h2, le_trans hub (le_max_right _ _)⟩
    apply main _ _ ?_ ?_ hp
    · intro q hq
      by_cases he : config.enable_bfs
      · rw [if_pos he] at hq
        exact bfs_find_all_hops config.bfs_max_hops config.min_roi_percent _ 10 q hq
      · rw [if_neg he] at hq
        cases hq
    · intro q hq
      by_cases he : config.enable_bf
      · rw [if_pos he] at hq
        exact bf_find_all_hops config.bf_max_hops config.min_roi_percent lnf _ 10 q hq
      · rw [if_neg he] at hq
        cases hq

/-- Witness for C6: the concrete triangle run returns at least one
path; its first path is a closed cycle with hop count within bounds. -/
theorem calculate_paths_closed_bounded_witness :
    wCalc.headI.start_token = wCalc.headI.end_token
    ∧ 2 ≤ wCalc.headI.steps.length
    ∧ wCalc.headI.steps.length ≤ max wCfg.bfs_max_hops wCfg.bf_max_hops :=
  calculate_paths_closed_bounded wCfg (fun _ => 0) 100 [wPoolT1, wPoolT2, wPoolT3]
    wCalc.headI
    (headI_mem_of_ne_nil wCalc (of_decide_eq_true (by with_unfolding_all rfl)))

/-- Each pool contributes at most two candidate edges. -/
theorem bfs_get_next_edges_length (current : String) (pools : List PoolPrice) :
    (bfs.get_next_edges current pools).length ≤ 2 * pools.length := by
  suffices h : ∀ (ps : List PoolPrice) (acc : List bfs.PoolEdge),
      ((ps.foldl (bfs.get_next_edges_step current) acc).length)
        ≤ acc.length + 2 * ps.length by
    simpa using h pools []
  intro ps
  induction ps with
  | nil =>
      intro acc
      simp
  | cons p ps ih =>
      intro acc
      simp only [List.foldl_cons]
      refine le_trans (ih _) ?_
      have hstep : (bfs.get_next_edges_step current acc p).length ≤ acc.length + 2 := by
        unfold bfs.get_next_edges_step
        split
        · rename_i xs b q heq
          simp only [List.length_append]
          have h1 : (if current = q then
              [({ pool := p, from_token := q, to_token := b } : bfs.PoolEdge)]
              else []).length ≤ 1 := by
            split <;> simp
          have h2 : (if current = b then
              [({ pool := p, from_token := b, to_token := q } : bfs.PoolEdge)]
              else []).length ≤ 1 := by
            split <;> simp
          omega
        · omega
      simp only [List.length_cons]
      omega

/-- The expansion fold adds at most one child per candidate edge. -/
theorem bfs_expand_fold_count (start : String) (node : bfs.PathNode)
    (edges : List bfs.PoolEdge) :
    ∀ acc : List bfs.PathNode × List String,
      ((edges.foldl (bfs.expand_step start node) acc).1).length
        ≤ acc.1.length + edges.length := by
  induction edges with
  | nil =>
      intro acc
      simp
  | cons e es ih =>
      intro acc
      simp only [List.foldl_cons]
      refine le_trans (ih _) ?_
      have hstep : ((bfs.expand_step start node acc e).1).length ≤ acc.1.length + 1 := by
        unfold bfs.expand_step
        dsimp only
        split
        · omega
        · split
          · omega
          · split
            · omega
            · simp
      simp only [List.length_cons]
      omega

/-- Every child produced by the expansion fold extends the parent's
token list by exactly one. -/
theorem bfs_expand_fold_tokens (start : String) (node : bfs.PathNode)
    (edges : List bfs.PoolEdge) :
    ∀ acc : List bfs.PathNode × List String,
      (∀ n ∈ acc.1, n.tokens.length = node.tokens.length + 1) →
      ∀ n ∈ (edges.foldl (bfs.expand_step start node) acc).1,
        n.tokens.length = node.tokens.length + 1 := by
  induction edges with
  | nil =>
      intro acc hacc
      exact hacc
  | cons e es ih =>
      intro acc hacc
      simp only [List.foldl_cons]
      apply ih
      intro n hn
      simp only [bfs.expand_step] at hn
      split at hn
      · exact hacc n hn
      · split at hn
        · exact hacc n hn
        · split at hn
          · exact hacc n hn
          · simp only [List.mem_append, List.mem_singleton] at hn
            rcases hn with hn | rfl
            · exact hacc n hn
            · simp

/-- Sum of a constant-valued map. -/
theorem sum_map_const_of (g : bfs.PathNode → Nat) (c : Nat) :
    ∀ l : List bfs.PathNode, (∀ n ∈ l, g n = c) → (l.map g).sum = l.length * c := by
  intro l
  induction l with
  | nil =>
      intro _
      simp
  | cons a as ih =>
      intro h
      simp only [List.map_cons, List.sum_cons, List.length_cons]
      rw [h a (List.mem_cons_self _ _), ih (fun n hn => h n (List.mem_cons_of_mem _ hn))]
      ring

/-- One loop step strictly decreases the frontier measure: dropping the
head node frees its weight, and an expansion's children (at most
`2 * |pools| = B - 1` of them, each one token longer) weigh strictly
less than the parent. -/
theorem bfs_measure_expand_lt (maxD : Nat) (pools : List PoolPrice)
    (start current : String) (node : bfs.PathNode) (rest : List bfs.PathNode)
    (visited : List String) (hcap : ¬ maxD ≤ node.tokens.length - 1) :
    bfs.bfs_measure maxD pools (rest ++ (bfs.expand start current node pools visited).1)
      < bfs.bfs_measure maxD pools (node :: rest) := by
  set B := 2 * pools.length + 1 with hB
  set L := node.tokens.length with hL
  have hLD : L ≤ maxD := by omega
  have hchildlen : ∀ n ∈ (bfs.expand start current node pools visited).1,
      n.tokens.length = L + 1 := by
    unfold bfs.expand
    exact bfs_expand_fold_tokens start node _ ([], visited) (by simp)
  have hccount : ((bfs.expand start current node pools visited).1).length
      ≤ 2 * pools.length := by
    unfold bfs.expand
    refine le_trans (bfs_expand_fold_count start node _ ([], visited)) ?_
    simpa using bfs_get_next_edges_length current pools
  have hchildsum : bfs.bfs_measure maxD pools (bfs.expand start current node pools visited).1
      = ((bfs.expand start current node pools visited).1).length * B ^ (maxD + 1 - L) := by
    unfold bfs.bfs_measure
    apply sum_map_const_of
    intro n hn
    rw [hchildlen n hn]
    congr 1
    omega
  have hsplit : bfs.bfs_measure maxD pools (rest ++ (bfs.expand start current node pools visited).1)
      = bfs.bfs_measure maxD pools rest
        + bfs.bfs_measure maxD pools (bfs.expand start current node pools visited).1 := by
    unfold bfs.bfs_measure
    simp
  have hhead : bfs.bfs_measure maxD pools (node :: rest)
      = B ^ (maxD + 2 - L) + bfs.bfs_measure maxD pools rest := by
    unfold bfs.bfs_measure
    simp
  have hpow : B ^ (maxD + 2 - L) = B * B ^ (maxD + 1 - L) := by
    have he : maxD + 2 - L = (maxD + 1 - L) + 1 := by omega
    rw [he, pow_succ]
    ring
  have hBpos : 0 < B ^ (maxD + 1 - L) := Nat.pos_pow_of_pos _ (by omega)
  rw [hsplit, hhead, hchildsum, hpow]
  have hltB : ((bfs.expand start current node pools visited).1).length < B := by omega
  have hmul : ((bfs.expand start current node pools visited).1).length * B ^ (maxD + 1 - L)
      < B * B ^ (maxD + 1 - L) :=
    (Nat.mul_lt_mul_right hBpos).mpr hltB
  omega

/-- Fuel sufficiency for the BFS loop: any fuel strictly above the
frontier measure yields the same result, so `bfs_from_token`'s choice
`bfs_measure … + 1` computes exactly the source's unbounded
`while let` loop (the out-of-fuel branch is unreachable). -/
theorem bfs_loop_fuel_sufficient (maxD : Nat) (minRoi early : ℚ) (start : String)
    (pools : List PoolPrice) (init : ℚ) :
    ∀ (f1 : Nat) (queue : List bfs.PathNode) (visited : List String)
      (results : List ArbitragePath),
      bfs.bfs_measure maxD pools queue < f1 →
      ∀ f2 : Nat, bfs.bfs_measure maxD pools queue < f2 →
      bfs.bfs_loop maxD minRoi early start pools init f1 queue visited results
        = bfs.bfs_loop maxD minRoi early start pools init f2 queue visited results := by
  intro f1
  induction f1 with
  | zero =>
      intro queue visited results h1 f2 h2
      omega
  | succ f ih =>
      intro queue visited results h1 f2 h2
      cases f2 with
      | zero => omega
      | succ g =>
          cases queue with
          | nil => simp only [bfs.bfs_loop]
          | cons node rest =>
              have hhead : bfs.bfs_measure maxD pools (node :: rest)
                  = (2 * pools.length + 1) ^ (maxD + 2 - node.tokens.length)
                    + bfs.bfs_measure maxD pools rest := by
                unfold bfs.bfs_measure
                simp
              have hpos : 0 < (2 * pools.length + 1) ^ (maxD + 2 - node.tokens.length) :=
                Nat.pos_pow_of_pos _ (by omega)
              have hrest1 : bfs.bfs_measure maxD pools rest < f := by omega
              have hrest2 : bfs.bfs_measure maxD pools rest < g := by omega
              simp only [bfs.bfs_loop]
              by_cases hcap : maxD ≤ node.tokens.length - 1
              · rw [if_pos hcap, if_pos hcap]
                exact ih rest visited results hrest1 g hrest2
              · rw [if_neg hcap, if_neg hcap]
                by_cases hprune : 0 < node.tokens.length - 1
                    ∧ (node.amount - init) / init * 100 < early
                · rw [if_pos hprune, if_pos hprune]
                  exact ih rest visited results hrest1 g hrest2
                · rw [if_neg hprune, if_neg hprune]
                  cases hlast : node.tokens.getLast? with
                  | none =>
                      simp only [hlast]
                      exact ih rest visited results hrest1 g hrest2
                  | some current =>
                      simp only [hlast]
                      by_cases hclose : 2 ≤ node.tokens.length - 1 ∧ current = start
                      · rw [if_pos hclose, if_pos hclose]
                        cases hconv : bfs.convert_to_arbitrage_path node init with
                        | none =>
                            simp only [hconv]
                            exact ih rest visited results hrest1 g hrest2
                        | some ap =>
                            simp only [hconv]
                            by_cases hroi : minRoi ≤ ap.roi_percent
                            · rw [if_pos hroi]
                              exact ih rest visited (results ++ [ap]) hrest1 g hrest2
                            · rw [if_neg hroi]
                              exact ih rest visited results hrest1 g hrest2
                      · rw [if_neg hclose, if_neg hclose]
                        have hdec := bfs_measure_expand_lt maxD pools start current node rest
                          visited hcap
                        exact ih _ _ results (by omega) g (by omega)
